import Mathlib

/-!
# Verification of the relay event-normalization pipeline

Shallow embedding of `src/relay-general/src/store/normalize.rs` (the
`NormalizeProcessor`) and the parts of the annotated-value model and the
protocol schema that it uses.  The annotated-value machinery (`Annotated`,
`Meta`, `ProcessingAction`), the `StoreConfig` structure and the protocol
constants are declared outside the given sources; those definitions are
modelled from the spec (sections 3, 4.1, 4.3 and 6) and are marked
`Modelled from the spec:` in their doc comments.  Everything else is a
direct translation of `normalize.rs`.

Modelling conventions:
* machine integers become `Int`/`Nat` (no arithmetic in the normalizer can
  overflow: it only compares timestamps and bounds);
* wall-clock time (`Utc::now()`) and the fresh event id (`EventId::new()`)
  are explicit parameters `now` and `fresh_id`;
* the per-field mutation of the Rust code becomes explicit state passing:
  each normalization step is a function `Event → Event`;
* fields of the schema not touched by any normalization rule under
  verification (breadcrumbs, contexts, debug images, logentry, frame
  internals, request url/query/cookies/headers) are omitted from the
  record types; the sub-processors living in submodules that are not part
  of the sources (`stacktrace.rs`, `request.rs`, `mechanism.rs`,
  `contexts.rs`, `logentry.rs`) act only on those omitted fields or on
  opaque content and are modelled as the identity on the modelled fields.
-/

namespace Relay

/-! ## Error taxonomy and the annotated value model -/

/-- Modelled from the spec: `ErrorKind` is a closed tag set (§7):
`InvalidData`, `MissingAttribute`, `ValueTooLong`, `NonEmptyExpected`,
`FutureTimestamp`, `PastTimestamp`, `Invalid(reason)`. -/
inductive ErrorKind where
  | invalidData
  | missingAttribute
  | valueTooLong
  | nonEmptyExpected
  | futureTimestamp
  | pastTimestamp
  | invalid (reason : String)
deriving DecidableEq, Repr

/-- Modelled from the spec: an `Error` is `{kind, attributes}` where
`attributes` is a mapping from strings to scalars (§3). -/
structure ErrorRec where
  kind : ErrorKind
  attributes : List (String × String) := []
deriving DecidableEq, Repr

/-- `Error::new(kind)` — an error with no attributes. -/
def ErrorRec.new (kind : ErrorKind) : ErrorRec := { kind := kind }

/-- `Error::nonempty()`. -/
def ErrorRec.nonempty : ErrorRec := { kind := .nonEmptyExpected }

/-- `Error::invalid(reason)`. -/
def ErrorRec.invalidMsg (reason : String) : ErrorRec := { kind := .invalid reason }

/-- Modelled from the spec: the raw-JSON snapshot stored by a soft delete
as `original_value` (§3).  Only the shapes this development actually
stores are represented: strings, integers, and flat object snapshots of
deleted containers. -/
inductive Orig where
  | str (s : String)
  | int (n : Int)
  | nat (n : Nat)
  | obj (fields : List (String × Option String))
deriving DecidableEq, Repr

/-- Modelled from the spec: arbitrary JSON payload values occurring in
open maps (`request.env`, `extra`).  Normalization only ever inspects
string-valued entries, so non-string JSON is kept as an opaque token. -/
inductive Value where
  | str (s : String)
  | other (token : String)
deriving DecidableEq, Repr

/-- `Annotated::<Value>::as_str`. -/
def Value.as_str : Value → Option String
  | .str s => some s
  | .other _ => none

/-- Modelled from the spec: metadata record carrying an ordered sequence
of errors and an optional raw-JSON snapshot of a rejected value (§3).
Remarks are never produced by the normalizer and are omitted. -/
structure Meta where
  errors : List ErrorRec := []
  original_value : Option Orig := none
deriving DecidableEq, Repr

/-- `Meta::add_error` appends to the ordered error sequence. -/
def Meta.add_error (m : Meta) (e : ErrorRec) : Meta :=
  { m with errors := m.errors ++ [e] }

/-- `Meta::is_empty`: no errors and no original value. -/
def Meta.isEmpty (m : Meta) : Bool :=
  m.errors.isEmpty && m.original_value.isNone

/-- Modelled from the spec: `Annotated<T>` is a pair of an optional value
and metadata (§3). -/
structure Annotated (α : Type) where
  value : Option α := none
  meta : Meta := {}
deriving DecidableEq, Repr

/-- `Annotated::new(v)`: a value with empty metadata. -/
def Annotated.new {α} (v : α) : Annotated α := { value := some v }

/-- `Annotated::empty()` / `Annotated::default()`. -/
def Annotated.empty {α} : Annotated α := {}

/-- `Annotated::from_error(err, original)`. -/
def Annotated.from_error {α} (e : ErrorRec) (orig : Option Orig) : Annotated α :=
  { value := none, meta := { errors := [e], original_value := orig } }

/-- Modelled from the spec: `ProcessingAction`, the outcome returned by a
visitor hook (§3).  `Keep` is represented by returning no action. -/
inductive ProcessingAction where
  | deleteValueSoft
  | deleteValueHard
deriving DecidableEq, Repr

/-- A hook/closure result: `Ok` is `none`, `Err(action)` is `some action`. -/
abbrev ProcessingResult := Option ProcessingAction

/-- Modelled from the spec: `Annotated::apply(f)` invokes `f` on the value
and metadata only if the value is present, catching a returned
`ProcessingAction` and applying it (§4.1): a soft delete clears the value
and copies the (serialized) value into `original_value`; a hard delete
clears the value and discards the original.  Both are absorbed (the walker
continues), matching §4.3 items 3–4.  `enc` is the serialization used for
the original-value snapshot. -/
def Annotated.apply {α} (a : Annotated α) (enc : α → Orig)
    (f : α → Meta → α × Meta × ProcessingResult) : Annotated α :=
  match a.value with
  | none => a
  | some v =>
    match f v a.meta with
    | (v', m', none) => { value := some v', meta := m' }
    | (v', m', some .deleteValueSoft) =>
        { value := none, meta := { m' with original_value := some (enc v') } }
    | (_, m', some .deleteValueHard) => { value := none, meta := m' }

/-- `Annotated::get_or_insert_with(default)`: lazily materialize the
value, keeping the metadata. -/
def Annotated.get_or_insert_with {α} (a : Annotated α) (d : α) : Annotated α :=
  { a with value := some (a.value.getD d) }

/-- `Annotated::set_value`: replace the value, keeping the metadata. -/
def Annotated.set_value {α} (a : Annotated α) (v : Option α) : Annotated α :=
  { a with value := v }

/-- `Empty::is_empty` for an optional string: absent or the empty
string. -/
def strOptEmpty : Option String → Bool
  | none => true
  | some s => s == ""

/-- Modelled from the spec: `Empty::is_empty` on an `Annotated<String>`
used by `normalize_event_tags` — true only when the value is absent or
empty *and* the metadata carries no annotations (a slot whose meta holds
errors or an original value is not empty; this is what lets the
`_meta` tree of a soft-deleted environment survive, cf. §4.1). -/
def annStrIsEmpty (a : Annotated String) : Bool :=
  strOptEmpty a.value && a.meta.isEmpty

/-! ## String helpers (regex, trimming, case folding, IP parsing) -/

/-- A word character of the regex class `\w` (ASCII range; the `regex`
crate's class is Unicode-aware, but every string the claims exercise is
ASCII). -/
def isWordChar (c : Char) : Bool :=
  c.isAlphanum || c = '_'

/-- The compiled regex `^(\w+):(.*)$` from `process_exception`, as a
splitting function: the haystack matches iff a non-empty maximal word
prefix is immediately followed by `:` and the remainder contains no
newline (`.` does not match `\n` and `$` anchors at the end of the
haystack).  Returns the two captures. -/
def splitTypeValue (s : String) : Option (String × String) :=
  let p := s.data.takeWhile isWordChar
  if p.isEmpty then none
  else
    match s.data.drop p.length with
    | ':' :: tail => if tail.contains '\n' then none else some (⟨p⟩, ⟨tail⟩)
    | _ => none

/-- ASCII lower-casing of a character, as a code point. -/
def charLowerNat (c : Char) : Nat :=
  if 65 ≤ c.toNat ∧ c.toNat ≤ 90 then c.toNat + 32 else c.toNat

/-- `str::eq_ignore_ascii_case`: equality up to ASCII case folding. -/
def eqIgnoreAsciiCase (s t : String) : Bool :=
  s.data.map charLowerNat == t.data.map charLowerNat

/-- `str::trim`: strip leading and trailing whitespace (the claims only
exercise ASCII whitespace). -/
def trimStr (s : String) : String :=
  ⟨((s.data.dropWhile Char.isWhitespace).reverse.dropWhile Char.isWhitespace).reverse⟩

/-- `bytecount::num_chars`: the number of characters of a UTF-8 string. -/
def numChars (s : String) : Nat := s.length

/-- Split a character list at every occurrence of a separator (the
semantics of `str::split`). -/
def splitChars (sep : Char) : List Char → List (List Char)
  | [] => [[]]
  | c :: rest =>
    let r := splitChars sep rest
    if c = sep then [] :: r
    else
      match r with
      | h :: t => (c :: h) :: t
      | [] => [[c]]

/-- Decimal digits to a number (total; callers guarantee all-digit
input). -/
def digitsToNat (l : List Char) : Nat :=
  l.foldl (fun n c => n * 10 + (c.toNat - 48)) 0

/-- Modelled from the spec: textual IP validation — v4 dotted-quad form
(§6).  Four non-empty all-digit components, each at most 255, without
leading zeros.  (The canonical-v6 form also accepted by the source is not
needed by any claim and is omitted; every theorem conditions on the
outcome of this parse.) -/
def is_valid_ipv4 (s : String) : Bool :=
  let parts := splitChars '.' s.data
  parts.length = 4 && parts.all fun p =>
    !p.isEmpty && p.all Char.isDigit && digitsToNat p ≤ 255 &&
      (p.length = 1 || !(p.head? == some '0'))

/-- `IpAddr::parse(ip).ok()`: yields the textual IP when it is valid. -/
def IpAddr.parse (s : String) : Option String :=
  if is_valid_ipv4 s then some s else none

/-- The literal auto sentinel string (double-braced `auto`). -/
def autoSentinel : String := "\x7b\x7bauto\x7d\x7d"

/-- `IpAddr::is_auto`: the sentinel value. -/
def ipIsAuto (s : String) : Bool := s = autoSentinel

/-- `str::splitn(2, sep).collect_tuple()`: split at the first occurrence
of `sep` into exactly two parts (none when the separator is absent). -/
def splitOnce (s : String) (sep : Char) : Option (String × String) :=
  let pre := s.data.takeWhile (· ≠ sep)
  if pre.length = s.data.length then none
  else some (⟨pre⟩, ⟨s.data.drop (pre.length + 1)⟩)

/-! ## Protocol schema types (the event tree)

Modelled from the spec §3 and the uses in `normalize.rs`: every schema
field is wrapped in `Annotated<T>`; only the fields touched by the
normalization rules under verification are represented. -/

/-- The stacktrace interface.  Its internals are normalized by the
`stacktrace` submodule which is not part of the sources; the content is
kept opaque and that sub-processor is modelled as the identity
(`Modelled from the spec:` §4.5 `process_stacktrace` trims frames and
backfills `abs_path`, touching only the opaque content). -/
structure Stacktrace where
  raw : String
deriving DecidableEq, Repr

/-- The exception interface: `{ty, value, stacktrace, ...}` (§3).  The
`mechanism`, `module` and `thread_id` fields are untouched by every rule
under verification (mechanism normalization lives in the missing
`mechanism` submodule) and are omitted. -/
structure Exception where
  ty : Annotated String := {}
  value : Annotated String := {}
  stacktrace : Annotated Stacktrace := {}
deriving DecidableEq, Repr

/-- Serialization of an exception for the `original_value` snapshot of a
soft delete. -/
def encException (e : Exception) : Orig :=
  .obj [("type", e.ty.value), ("value", e.value.value),
        ("stacktrace", e.stacktrace.value.map Stacktrace.raw)]

/-- `Values<Exception>`: the wrapper holding the ordered exception
list. -/
structure Values where
  values : Annotated (List (Annotated Exception)) := {}
deriving DecidableEq, Repr

/-- A tag entry `TagEntry(Annotated<String>, Annotated<String>)`: an
annotated key and an annotated value. -/
structure TagEntry where
  key : Annotated String := {}
  value : Annotated String := {}
deriving DecidableEq, Repr

/-- Serialization of a tag entry for original-value snapshots. -/
def encTagEntry (t : TagEntry) : Orig :=
  .obj [("0", t.key.value), ("1", t.value.value)]

/-- `Tags(PairList<TagEntry>)`: the ordered list of annotated tag
entries. -/
structure Tags where
  pairs : List (Annotated TagEntry) := []
deriving DecidableEq, Repr

/-- The user interface; `other`/`data` and the remaining fields are not
needed by any claim and are omitted.  `Geo` is kept opaque (a lookup
result token). -/
structure User where
  ip_address : Annotated String := {}
  geo : Annotated String := {}
deriving DecidableEq, Repr

/-- The request interface, reduced to the `env` map consumed by IP
inference.  URL/query/cookie/header normalization (`request` submodule,
not part of the sources) acts only on omitted fields and is modelled as
the identity. -/
structure Request where
  env : Annotated (List (String × Annotated Value)) := {}
deriving DecidableEq, Repr

/-- Severity level (§3). -/
inductive Level where
  | debug | info | warning | error | fatal
deriving DecidableEq, Repr

/-- Event type (§3). -/
inductive EventType where
  | default | error | csp | hpkp | expectct | expectstaple | transaction
deriving DecidableEq, Repr

/-- `ClientSdkInfo` as constructed by `get_sdk_info`. -/
structure ClientSdkInfo where
  name : Annotated String := {}
  version : Annotated String := {}
deriving DecidableEq, Repr

/-- The top-level event (§3), restricted to the fields read or written by
`NormalizeProcessor`.  The security-report payloads (`csp`, `hpkp`,
`expectct`, `expectstaple`) are kept as opaque values: normalization only
tests their presence. -/
structure Event where
  id : Annotated String := {}
  level : Annotated Level := {}
  version : Annotated String := {}
  ty : Annotated EventType := {}
  logger : Annotated String := {}
  platform : Annotated String := {}
  timestamp : Annotated Int := {}
  received : Annotated Int := {}
  server_name : Annotated String := {}
  release : Annotated String := {}
  dist : Annotated String := {}
  environment : Annotated String := {}
  site : Annotated String := {}
  time_spent : Annotated Nat := {}
  user : Annotated User := {}
  request : Annotated Request := {}
  exceptions : Annotated Values := {}
  stacktrace : Annotated Stacktrace := {}
  tags : Annotated Tags := {}
  extra : Annotated (List (String × Annotated Value)) := {}
  errors : Annotated (List Value) := {}
  project : Annotated Nat := {}
  key_id : Annotated String := {}
  grouping_config : Annotated (List (String × Value)) := {}
  client_sdk : Annotated ClientSdkInfo := {}
  csp : Annotated Value := {}
  hpkp : Annotated Value := {}
  expectct : Annotated Value := {}
  expectstaple : Annotated Value := {}
deriving DecidableEq, Repr

/-- Modelled from the spec: `StoreConfig`, the input-only contract of the
fields consumed by the normalizer (§6). -/
structure StoreConfig where
  project_id : Option Nat := none
  key_id : Option String := none
  client : Option String := none
  client_ip : Option String := none
  user_agent : Option String := none
  protocol_version : Option String := none
  grouping_config : Option (List (String × Value)) := none
  max_secs_in_future : Option Int := none
  max_secs_in_past : Option Int := none
  normalize_user_agent : Option Bool := none
  is_renormalize : Option Bool := none
deriving Repr

/-! ## Protocol constants -/

/-- Modelled from the spec: the `VALID_PLATFORMS` whitelist constant
(declared in the protocol crate, not part of the sources).  The spec names
`javascript`, `cocoa`, `objc` as client platforms and `other` as the
default (§3, §4.4); the remaining entries are the conventional SDK
platform identifiers. -/
def VALID_PLATFORMS : List String :=
  ["as3", "c", "cfml", "cocoa", "csharp", "elixir", "go", "groovy",
   "haskell", "java", "javascript", "native", "node", "objc", "other",
   "perl", "php", "python", "ruby"]

/-- Modelled from the spec: `INVALID_ENVIRONMENTS` (e.g. `"none"`, §3). -/
def INVALID_ENVIRONMENTS : List String := ["none"]

/-- Modelled from the spec: `INVALID_RELEASES` (e.g. `"latest"`, §3). -/
def INVALID_RELEASES : List String := ["latest"]

/-- Modelled from the spec: `MaxChars::TagKey.limit()` = 32 (§6). -/
def maxCharsTagKey : Nat := 32

/-- Modelled from the spec: `MaxChars::TagValue.limit()` = 200 (§6). -/
def maxCharsTagValue : Nat := 200

/-- `is_valid_platform`: membership in the whitelist. -/
def is_valid_platform (platform : String) : Bool :=
  VALID_PLATFORMS.contains platform

/-- `is_valid_environment`: not a member of `INVALID_ENVIRONMENTS`. -/
def is_valid_environment (environment : String) : Bool :=
  !INVALID_ENVIRONMENTS.contains environment

/-- `is_valid_release`: no case-insensitive match against
`INVALID_RELEASES`. -/
def is_valid_release (release : String) : Bool :=
  !INVALID_RELEASES.any fun invalid => eqIgnoreAsciiCase release invalid

/-- `validate_bounded_integer_field`: values for a
`BoundedIntegerField` must be below `2_147_483_647`. -/
def validate_bounded_integer_field (value : Nat) : ProcessingResult :=
  if value < 2147483647 then none else some .deleteValueHard

/-! ## PairList and map operations -/

/-- `PairList::remove(key)` (used as `tags.remove("environment")`):
remove the first entry whose present pair has the given key, returning
that pair's annotated value. -/
def removeTag : List (Annotated TagEntry) → String →
    Option (Annotated String) × List (Annotated TagEntry)
  | [], _ => (none, [])
  | a :: rest, k =>
    match a.value with
    | some p =>
      if p.key.value = some k then (some p.value, rest)
      else
        let (r, rest') := removeTag rest k
        (r, a :: rest')
    | none =>
      let (r, rest') := removeTag rest k
      (r, a :: rest')

/-- `PairList::insert(key, value)`: replace the annotated value of the
first entry whose present pair has the given key, or append a fresh
entry. -/
def insertTag : List (Annotated TagEntry) → String → Annotated String →
    List (Annotated TagEntry)
  | [], k, v => [Annotated.new { key := Annotated.new k, value := v }]
  | a :: rest, k, v =>
    match a.value with
    | some p =>
      if p.key.value = some k then { value := some { p with value := v }, meta := a.meta } :: rest
      else a :: insertTag rest k v
    | none => a :: insertTag rest k v

/-- The reserved internal tag keys removed by `normalize_event_tags`. -/
def RESERVED_TAG_KEYS : List String :=
  ["", "release", "dist", "user", "filename", "function"]

/-- The `tags.retain(..)` pass: drop entries with reserved keys and
deduplicate by key, keeping the first occurrence.  The running
`DedupCache` of key hashes is modelled as the exact set of keys seen so
far.  Entries without a value are retained (serialization decides whether
to skip them). -/
def dedupTags (seen : List String) : List (Annotated TagEntry) →
    List (Annotated TagEntry)
  | [] => []
  | a :: rest =>
    match a.value with
    | some p =>
      let name := p.key.value.getD ""
      if RESERVED_TAG_KEYS.contains name then dedupTags seen rest
      else if seen.contains name then dedupTags seen rest
      else a :: dedupTags (name :: seen) rest
    | none => a :: dedupTags seen rest

/-- The per-tag `apply` closure of `normalize_event_tags`: over-long keys,
empty values and over-long values are hard-deleted with the matching
error. -/
def validateTagFn (t : TagEntry) (m : Meta) : TagEntry × Meta × ProcessingResult :=
  let checkValue : TagEntry × Meta × ProcessingResult :=
    match t.value.value with
    | some v =>
      if v == "" then (t, m.add_error ErrorRec.nonempty, some .deleteValueHard)
      else if numChars v > maxCharsTagValue then
        (t, m.add_error (ErrorRec.new .valueTooLong), some .deleteValueHard)
      else (t, m, none)
    | none => (t, m, none)
  match t.key.value with
  | some k =>
    if numChars k > maxCharsTagKey then
      (t, m.add_error (ErrorRec.new .valueTooLong), some .deleteValueHard)
    else checkValue
  | none => checkValue

/-- One tag entry through the validation `apply`. -/
def validateTagEntry (a : Annotated TagEntry) : Annotated TagEntry :=
  a.apply encTagEntry validateTagFn

/-- `Object::get` on the modelled `env` map. -/
def envGet (env : List (String × Annotated Value)) (k : String) :
    Option (Annotated Value) :=
  (env.find? (·.1 = k)).map (·.2)

/-! ## The `NormalizeProcessor` helpers -/

/-- `NormalizeProcessor::get_sdk_info`: split the config's client string
at the first `/`, falling back to the first space, into name/version. -/
def get_sdk_info (config : StoreConfig) : Option ClientSdkInfo :=
  config.client.bind fun client =>
    match splitOnce client '/' with
    | some (name, version) =>
      some { name := Annotated.new name, version := Annotated.new version }
    | none =>
      match splitOnce client ' ' with
      | some (name, version) =>
        some { name := Annotated.new name, version := Annotated.new version }
      | none => none

/-- `normalize_release_dist`: clear `dist` when `release` is empty,
otherwise trim it. -/
def normalize_release_dist (e : Event) : Event :=
  let dist0 :=
    if e.dist.value.isSome && strOptEmpty e.release.value then e.dist.set_value none
    else e.dist
  let dist1 :=
    match dist0.value with
    | some d => if trimStr d ≠ d then dist0.set_value (some (trimStr d)) else dist0
    | none => dist0
  { e with dist := dist1 }

/-- `normalize_timestamps`: overwrite `received` with now, soft-delete
out-of-range timestamps (`FutureTimestamp`/`PastTimestamp`), default an
absent timestamp to now, and bound `time_spent`. -/
def normalize_timestamps (config : StoreConfig) (now : Int) (e : Event) : Event :=
  let timestamp0 := e.timestamp.apply .int fun ts m =>
    if config.max_secs_in_future.any fun secs => decide (now + secs < ts) then
      (ts, m.add_error (ErrorRec.new .futureTimestamp), some .deleteValueSoft)
    else if config.max_secs_in_past.any fun secs => decide (ts < now - secs) then
      (ts, m.add_error (ErrorRec.new .pastTimestamp), some .deleteValueSoft)
    else (ts, m, none)
  let timestamp1 :=
    if timestamp0.value.isNone then timestamp0.set_value (some now) else timestamp0
  let time_spent := e.time_spent.apply .nat fun v m =>
    (v, m, validate_bounded_integer_field v)
  { e with received := Annotated.new now, timestamp := timestamp1,
           time_spent := time_spent }

/-- `normalize_event_tags`: materialize `tags`, reset a fully-empty
`environment`, move a legacy `environment` tag into the top-level field
if that is absent, drop reserved keys, deduplicate (first wins), validate
lengths/emptiness, and move `server_name`/`site` into tags. -/
def normalize_event_tags (e : Event) : Event :=
  let tagsAnn := e.tags.get_or_insert_with {}
  let pairs0 := (tagsAnn.value.getD {}).pairs
  let env0 := if annStrIsEmpty e.environment then Annotated.empty else e.environment
  let rp := removeTag pairs0 "environment"
  let removed := rp.1
  let pairs1 := rp.2
  let env1 :=
    match removed.bind Annotated.value with
    | some tag => env0.get_or_insert_with tag
    | none => env0
  let pairs2 := dedupTags [] pairs1
  let pairs3 := pairs2.map validateTagEntry
  let pairs4 :=
    if e.server_name.value.isSome then insertTag pairs3 "server_name" e.server_name
    else pairs3
  let pairs5 :=
    if e.site.value.isSome then insertTag pairs4 "site" e.site
    else pairs4
  { e with tags := { value := some { pairs := pairs5 }, meta := tagsAnn.meta },
           environment := env1,
           server_name := Annotated.empty, site := Annotated.empty }

/-- `infer_event_type`: an explicit payload type overrides inference;
otherwise infer from the present interfaces in fixed order. -/
def infer_event_type (e : Event) : EventType :=
  match e.ty.value with
  | some ty => ty
  | none =>
    let has_exceptions :=
      match e.exceptions.value with
      | some vs =>
        match vs.values.value with
        | some values => !values.isEmpty
        | none => false
      | none => false
    if has_exceptions then .error
    else if e.csp.value.isSome then .csp
    else if e.hpkp.value.isSome then .hpkp
    else if e.expectct.value.isSome then .expectct
    else if e.expectstaple.value.isSome then .expectstaple
    else .default

/-- `is_security_report`: any of the four security interfaces is
present. -/
def is_security_report (e : Event) : Bool :=
  e.csp.value.isSome || e.expectct.value.isSome ||
    e.expectstaple.value.isSome || e.hpkp.value.isSome

/-- `normalize_security_report`: for security reports, default the logger
to `"csp"` and force `user.ip_address` from the config's client IP.  (The
User-Agent header backfill acts on `request.headers`, which is outside
the modelled fields.) -/
def normalize_security_report (config : StoreConfig) (e : Event) : Event :=
  let p : Annotated String × Annotated User :=
    if !is_security_report e then (e.logger, e.user)
    else
      let logger := e.logger.get_or_insert_with "csp"
      let user :=
        match config.client_ip with
        | some client_ip =>
          let u := e.user.get_or_insert_with {}
          { u with value := u.value.map fun usr =>
              { usr with ip_address := Annotated.new client_ip } }
        | none => e.user
      (logger, user)
  { e with logger := p.1, user := p.2 }

/-- The string rewrite applied to a `REMOTE_ADDR` value: the auto
sentinel becomes the client IP, other strings and non-strings pass
through. -/
def autoFixValue (client_ip : String) : Value → Value
  | .str http_ip => if http_ip = autoSentinel then .str client_ip else .str http_ip
  | other => other

/-- The resolve-auto half of `normalize_ip_addresses` acting on the
request: rewrite a string-valued `env["REMOTE_ADDR"]` in place. -/
def requestFix (config : StoreConfig) (r : Annotated Request) : Annotated Request :=
  match config.client_ip with
  | some client_ip =>
    { r with value := r.value.map (fun req =>
        { req with env := { req.env with value := req.env.value.map (fun env =>
            env.map (fun kv =>
              if kv.1 = "REMOTE_ADDR" then
                (kv.1, { kv.2 with value := kv.2.value.map (autoFixValue client_ip) })
              else kv)) } }) }
  | none => r

/-- The resolve-auto half of `normalize_ip_addresses` acting on the user:
replace an auto `ip_address` with the client IP (in place, keeping
metadata). -/
def userAutoFix (config : StoreConfig) (u : Annotated User) : Annotated User :=
  match config.client_ip with
  | some client_ip =>
    { u with value := u.value.map fun usr =>
        { usr with ip_address := { usr.ip_address with
            value := usr.ip_address.value.map fun user_ip =>
              if ipIsAuto user_ip then client_ip else user_ip } } }
  | none => u

/-- The platforms for which the client IP is backfilled when nothing
else is known (`Some("javascript") | Some("cocoa") | Some("objc")`). -/
def isClientIpPlatform : Option String → Bool
  | some "javascript" | some "cocoa" | some "objc" => true
  | _ => false

/-- The `http_ip` extraction of `normalize_ip_addresses`:
`request.env["REMOTE_ADDR"]` as a string, parsed as an IP. -/
def httpIpOf (r : Annotated Request) : Option String :=
  (r.value.bind fun req => req.env.value.bind fun env =>
    (envGet env "REMOTE_ADDR").bind fun ann => ann.value.bind Value.as_str).bind
    IpAddr.parse

/-- `normalize_ip_addresses`: resolve the auto sentinel against the
config's client IP, copy a parsable `request.env["REMOTE_ADDR"]` into
`user.ip_address` unless already set, and backfill the client IP for the
`javascript`/`cocoa`/`objc` platforms. -/
def normalize_ip_addresses (config : StoreConfig) (e : Event) : Event :=
  -- Resolve {{auto}} in request.env["REMOTE_ADDR"] and in user.ip_address
  let request := requestFix config e.request
  let user0 := userAutoFix config e.user
  -- Copy IPs from the request interface to the user
  let http_ip := httpIpOf request
  let user1 :=
    match http_ip with
    | some hip =>
      let u := user0.get_or_insert_with {}
      { u with value := u.value.map fun usr =>
          { usr with ip_address := usr.ip_address.get_or_insert_with hip } }
    | none =>
      match config.client_ip with
      | some client_ip =>
        let u := user0.get_or_insert_with {}
        { u with value := u.value.map fun usr =>
            if usr.ip_address.value.isNone then
              if isClientIpPlatform e.platform.value then
                { usr with ip_address := Annotated.new client_ip }
              else usr
            else usr }
      | none => user0
  { e with request := request, user := user1 }

/-- `normalize_exceptions`: with exactly one exception and a top-level
stacktrace, swap the stacktrace into the exception and clear the
top-level slot.  (Mechanism normalization lives in the missing
`mechanism` submodule, acts only on the omitted mechanism field, and is
modelled as the identity.) -/
def normalize_exceptions (e : Event) : Event :=
  let p : Annotated Values × Annotated Stacktrace :=
    match e.exceptions.value with
    | some vs =>
      match vs.values.value with
      | some excs =>
        if excs.length = 1 && e.stacktrace.value.isSome then
          match excs with
          | [a] =>
            match a.value with
            | some exc =>
              let excs' : List (Annotated Exception) :=
                [{ value := some { exc with stacktrace := e.stacktrace }, meta := a.meta }]
              ({ value := some { vs with values := vs.values.set_value (some excs') },
                 meta := e.exceptions.meta },
               Annotated.empty)
            | none => (e.exceptions, e.stacktrace)
          | _ => (e.exceptions, e.stacktrace)
        else (e.exceptions, e.stacktrace)
      | none => (e.exceptions, e.stacktrace)
    | none => (e.exceptions, e.stacktrace)
  { e with exceptions := p.1, stacktrace := p.2 }

/-- `normalize_user_agent`: with `normalize_user_agent` enabled, the
`uaparser`-feature module fills the browser/os/device contexts — all
outside the modelled fields; modelled as the identity. -/
def normalize_user_agent (_config : StoreConfig) (e : Event) : Event := e

/-! ## The visitor hooks -/

/-- Serialization of a user for original-value snapshots (never produced:
`process_user` always keeps). -/
def encUser (u : User) : Orig :=
  .obj [("ip_address", u.ip_address.value), ("geo", u.geo.value)]

/-- The `process_user` hook: infer `user.geo` from `user.ip_address` via
the GeoIP lookup when absent.  (The `other`→`data` move acts on omitted
fields.) -/
def process_user_fn (geoip : Option (String → Option String)) (u : User)
    (m : Meta) : User × Meta × ProcessingResult :=
  let u1 :=
    if u.geo.value.isNone then
      match geoip with
      | some lookup =>
        match u.ip_address.value with
        | some ip =>
          match lookup ip with
          | some geo => { u with geo := u.geo.set_value (some geo) }
          | none => u
        | none => u
      | none => u
    else u
  (u1, m, none)

/-- The `type: value` split of `process_exception`: with an empty type,
a value matching the split regex is divided into the two fields (the
second capture trimmed). -/
def exceptionSplit (exc : Exception) : Exception :=
  if strOptEmpty exc.ty.value then
    match exc.value.value with
    | some value_str =>
      match splitTypeValue value_str with
      | some (new_type, new_value) =>
        { exc with ty := exc.ty.set_value (some new_type),
                   value := exc.value.set_value (some (trimStr new_value)) }
      | none => exc
    | none => exc
  else exc

/-- The `process_exception` hook: split a `type: value` string into the
two fields when the type is empty, then soft-delete exceptions in which
both remain empty with `MissingAttribute{attribute: "type or value"}`. -/
def process_exception_fn (exc : Exception) (m : Meta) :
    Exception × Meta × ProcessingResult :=
  let exc1 := exceptionSplit exc
  if strOptEmpty exc1.ty.value && strOptEmpty exc1.value.value then
    (exc1,
     m.add_error { kind := .missingAttribute,
                   attributes := [("attribute", "type or value")] },
     some .deleteValueSoft)
  else (exc1, m, none)

/-- `process_exception` at its slot: the walker invokes the hook through
`Annotated::apply`, absorbing the soft delete. -/
def process_exception (a : Annotated Exception) : Annotated Exception :=
  a.apply encException process_exception_fn

/-- The `process_user` hook at its slot: invoked through
`Annotated::apply` by the walker. -/
def process_user_slot (geoip : Option (String → Option String))
    (u : Annotated User) : Annotated User :=
  u.apply encUser (process_user_fn geoip)

/-- `process_child_values` for the event: the walker dispatches the
per-type hooks to the direct children.  Of the modelled children only the
user and the exceptions have non-trivial hooks (the request and
stacktrace sub-processors act on omitted fields). -/
def process_child_values (geoip : Option (String → Option String)) (e : Event) :
    Event :=
  let user := process_user_slot geoip e.user
  let exceptions :=
    { e.exceptions with value := e.exceptions.value.map fun vs =>
        { vs with values := { vs.values with
            value := vs.values.value.map (List.map process_exception) } } }
  { e with user := user, exceptions := exceptions }

/-- The override block of `process_event`: `project`, `key_id`, `ty`,
`version` and `grouping_config` are set strictly from the config (the
event type from inference), discarding any payload values and their
metadata. -/
def apply_overrides (config : StoreConfig) (e : Event) : Event :=
  { e with
    project := { value := config.project_id },
    key_id := { value := config.key_id },
    ty := Annotated.new (infer_event_type e),
    version := { value := config.protocol_version },
    grouping_config :=
      match config.grouping_config with
      | some x => Annotated.new x
      | none => Annotated.empty }

/-- The validation block of `process_event`: whitelist `platform`
(soft-delete without an error kind), `environment` and `release`
(soft-delete with `InvalidData`). -/
def validate_basic_attributes (e : Event) : Event :=
  { e with
    platform := e.platform.apply .str fun p m =>
      if is_valid_platform p then (p, m, none) else (p, m, some .deleteValueSoft),
    environment := e.environment.apply .str fun v m =>
      if is_valid_environment v then (v, m, none)
      else (v, m.add_error (ErrorRec.new .invalidData), some .deleteValueSoft),
    release := e.release.apply .str fun r m =>
      if is_valid_release r then (r, m, none)
      else (r, m.add_error (ErrorRec.new .invalidData), some .deleteValueSoft) }

/-- The defaulting block of `process_event`: required attributes are
defaulted even if they carry errors. -/
def default_required_attributes (config : StoreConfig) (fresh_id : String)
    (e : Event) : Event :=
  { e with
    errors := e.errors.get_or_insert_with [],
    level := e.level.get_or_insert_with .error,
    id := e.id.get_or_insert_with fresh_id,
    platform := e.platform.get_or_insert_with "other",
    logger := e.logger.get_or_insert_with "",
    extra := e.extra.get_or_insert_with [],
    client_sdk :=
      if e.client_sdk.value.isNone then e.client_sdk.set_value (get_sdk_info config)
      else e.client_sdk }

/-- `NormalizeProcessor::process_event`: the root normalization, steps in
source order.  `now` stands for `Utc::now()` and `fresh_id` for
`EventId::new()`; `geoip` is the optional GeoIP lookup. -/
def process_event (config : StoreConfig) (geoip : Option (String → Option String))
    (now : Int) (fresh_id : String) (e : Event) : Event :=
  let e1 := normalize_security_report config e
  let e2 := normalize_ip_addresses config e1
  let e3 := process_child_values geoip e2
  let e4 := apply_overrides config e3
  let e5 := validate_basic_attributes e4
  let e6 := default_required_attributes config fresh_id e5
  let e7 := normalize_release_dist e6
  let e8 := normalize_timestamps config now e7
  let e9 := normalize_event_tags e8
  let e10 := normalize_exceptions e9
  normalize_user_agent config e10

/-! ## Basic lemmas about the annotated-value model -/

theorem Annotated.get_or_insert_with_of_some {α} (a : Annotated α) (d v : α)
    (h : a.value = some v) : a.get_or_insert_with d = a := by
  cases a
  simp_all [Annotated.get_or_insert_with]

theorem splitTypeValue_fst_ne_empty {s : String} {t v : String}
    (h : splitTypeValue s = some (t, v)) : (t == "") = false := by
  unfold splitTypeValue at h
  by_cases hp : (s.data.takeWhile isWordChar).isEmpty
  · simp [hp] at h
  · simp only [hp, Bool.false_eq_true, if_false] at h
    split at h
    · split at h
      · exact absurd h (by simp)
      · obtain ⟨rfl, rfl⟩ := by simpa using h
        simp only [beq_eq_false_iff_ne, ne_eq, String.ext_iff]
        simpa using hp
    · exact absurd h (by simp)

/-- Characterization of `process_exception` on a present slot: split,
then either soft-delete (both fields empty) or keep. -/
theorem process_exception_eq (exc : Exception) (m : Meta) :
    process_exception { value := some exc, meta := m } =
      if strOptEmpty (exceptionSplit exc).ty.value &&
          strOptEmpty (exceptionSplit exc).value.value then
        { value := none,
          meta := { errors := m.errors ++
                      [{ kind := .missingAttribute,
                         attributes := [("attribute", "type or value")] }],
                    original_value := some (encException (exceptionSplit exc)) } }
      else { value := some (exceptionSplit exc), meta := m } := by
  simp only [process_exception, Annotated.apply, process_exception_fn]
  by_cases hc : (strOptEmpty (exceptionSplit exc).ty.value &&
      strOptEmpty (exceptionSplit exc).value.value) = true
  · simp [hc, Meta.add_error]
  · rw [Bool.not_eq_true] at hc
    simp [hc]

/-- A non-empty type blocks the split. -/
theorem exceptionSplit_of_ty (exc : Exception)
    (h : strOptEmpty exc.ty.value = false) : exceptionSplit exc = exc := by
  unfold exceptionSplit
  simp [h]

/-- With no regex match the split is the identity. -/
theorem exceptionSplit_no_match (exc : Exception)
    (h : ∀ s, exc.value.value = some s → splitTypeValue s = none) :
    exceptionSplit exc = exc := by
  unfold exceptionSplit
  split
  · cases hv : exc.value.value with
    | none => rfl
    | some s => simp [hv, h s hv]
  · rfl

/-- The matching case of the split. -/
theorem exceptionSplit_match (exc : Exception) (s t v : String)
    (hty : strOptEmpty exc.ty.value = true) (hv : exc.value.value = some s)
    (hs : splitTypeValue s = some (t, v)) :
    exceptionSplit exc =
      { exc with ty := exc.ty.set_value (some t),
                 value := exc.value.set_value (some (trimStr v)) } := by
  unfold exceptionSplit
  simp [hty, hv, hs]

/-- The `process_exception` hook soft-deletes an exception whose type and
value are both empty, adding `MissingAttribute` and snapshotting the
original. -/
theorem process_exception_both_empty (exc : Exception) (m : Meta)
    (hty : strOptEmpty exc.ty.value = true)
    (hval : strOptEmpty exc.value.value = true) :
    process_exception { value := some exc, meta := m } =
      { value := none,
        meta := { errors := m.errors ++
                    [{ kind := .missingAttribute,
                       attributes := [("attribute", "type or value")] }],
                  original_value := some (encException exc) } } := by
  have hsplit : exceptionSplit exc = exc := by
    refine exceptionSplit_no_match exc fun s hs => ?_
    have : s = "" := by simpa [hs, strOptEmpty] using hval
    subst this
    rfl
  rw [process_exception_eq, hsplit]
  simp [hty, hval]

/-! ## Claim theorems -/

/-- Claim C1: for every input event and store config, the normalized
event's `project`, `key_id` and `version` come from the config
(`project_id`, `key_id`, `protocol_version`), regardless of the input
payload's values for those fields. -/
theorem claim_C1_server_field_authority (config : StoreConfig)
    (geoip : Option (String → Option String)) (now : Int) (fresh_id : String)
    (e : Event) :
    (process_event config geoip now fresh_id e).project.value = config.project_id ∧
    (process_event config geoip now fresh_id e).key_id.value = config.key_id ∧
    (process_event config geoip now fresh_id e).version.value = config.protocol_version :=
  ⟨rfl, rfl, rfl⟩

/-- Claim C6: for an exception with empty `ty`, a value matching
`^(\w+):(.*)$` is split into `ty` = first capture and `value` = trimmed
second capture; and a JSON-shaped value (starting with `{` and ending
with `}`) is never split (its first character is not a word character, so
the regex cannot match) and the exception passes through unchanged. -/
theorem claim_C6_type_value_split :
    (∀ (exc : Exception) (m : Meta) (s t v : String),
      strOptEmpty exc.ty.value = true → exc.value.value = some s →
      splitTypeValue s = some (t, v) →
      process_exception { value := some exc, meta := m } =
        { value := some { exc with ty := exc.ty.set_value (some t),
                                   value := exc.value.set_value (some (trimStr v)) },
          meta := m }) ∧
    (∀ (exc : Exception) (m : Meta) (s : String),
      exc.ty.value = none → exc.value.value = some s →
      s.data.head? = some '{' → s.data.getLast? = some '}' →
      process_exception { value := some exc, meta := m } =
        { value := some exc, meta := m }) := by
  constructor
  · intro exc m s t v hty hval hsplit
    have htne := splitTypeValue_fst_ne_empty hsplit
    rw [process_exception_eq, exceptionSplit_match exc s t v hty hval hsplit]
    simp [strOptEmpty, Annotated.set_value, htne]
  · intro exc m s hty hval hhead hlast
    have hsne : (s == "") = false := by
      cases hd : s.data with
      | nil => rw [hd] at hhead; simp at hhead
      | cons c rest =>
        simp only [beq_eq_false_iff_ne, ne_eq, String.ext_iff]
        simp [hd]
    have hsplit : splitTypeValue s = none := by
      unfold splitTypeValue
      cases hd : s.data with
      | nil => rw [hd] at hhead; simp at hhead
      | cons c rest =>
        rw [hd] at hhead
        have hc : c = '{' := by simpa using hhead
        subst hc
        simp [List.takeWhile, isWordChar]
    have he : exceptionSplit exc = exc := by
      refine exceptionSplit_no_match exc fun s2 hs2 => ?_
      rw [hval] at hs2
      cases hs2
      exact hsplit
    rw [process_exception_eq, he]
    simp [strOptEmpty, hval, hsne]

/-- Claim C6 witness: `"ValueError: unauthorized"` splits into type
`ValueError` and trimmed value `unauthorized`, while the JSON-shaped
value is preserved untouched with no type. -/
theorem claim_C6_type_value_split_witness :
    (process_exception (Annotated.new
        { value := Annotated.new "ValueError: unauthorized" : Exception })).value =
      some { ty := Annotated.new "ValueError",
             value := Annotated.new "unauthorized" } ∧
    (process_exception (Annotated.new
        { value := Annotated.new "\x7b\"unauthorized\":true\x7d" : Exception })) =
      Annotated.new { value := Annotated.new "\x7b\"unauthorized\":true\x7d" } := by
  constructor
  · have h := claim_C6_type_value_split.1
      { value := Annotated.new "ValueError: unauthorized" } {}
      "ValueError: unauthorized" "ValueError" " unauthorized" rfl rfl (by decide)
    rw [show (Annotated.new { value := Annotated.new "ValueError: unauthorized" : Exception }) =
      { value := some { value := Annotated.new "ValueError: unauthorized" : Exception }, meta := {} } from rfl, h]
    decide
  · have h := claim_C6_type_value_split.2
      { value := Annotated.new "\x7b\"unauthorized\":true\x7d" } {}
      "\x7b\"unauthorized\":true\x7d" rfl rfl (by decide) (by decide)
    exact h

/-- The single-exception scenario event of claim C7
(`"exception": "values": [..]` with nothing else set). -/
def c7Event (exc : Exception) (m : Meta) : Event :=
  { exceptions := Annotated.new { values := Annotated.new [{ value := some exc, meta := m }] } }

/-- The soft-deleted slot produced for an exception whose type and value
are both empty. -/
def deletedExceptionSlot (exc : Exception) (m : Meta) : Annotated Exception :=
  { value := none,
    meta := { errors := m.errors ++
                [{ kind := .missingAttribute,
                   attributes := [("attribute", "type or value")] }],
              original_value := some (encException exc) } }

/-- Claim C7: an exception in which both `ty` and `value` are empty after
the split step is soft-deleted with `MissingAttribute{attribute: "type or
value"}`: the slot's value is cleared, the original exception is
preserved in the slot's meta, and normalization of the rest of the event
continues (the event type is still inferred, the level defaulted and
`received` stamped). -/
theorem claim_C7_empty_exception_soft_delete :
    (∀ (exc : Exception) (m : Meta),
      strOptEmpty exc.ty.value = true → strOptEmpty exc.value.value = true →
      process_exception { value := some exc, meta := m } = deletedExceptionSlot exc m) ∧
    (∀ (now : Int) (fresh_id : String) (exc : Exception) (m : Meta),
      strOptEmpty exc.ty.value = true → strOptEmpty exc.value.value = true →
      (process_event {} none now fresh_id (c7Event exc m)).exceptions =
        Annotated.new { values := Annotated.new [deletedExceptionSlot exc m] } ∧
      (process_event {} none now fresh_id (c7Event exc m)).ty.value = some .error ∧
      (process_event {} none now fresh_id (c7Event exc m)).level.value = some .error ∧
      (process_event {} none now fresh_id (c7Event exc m)).received.value = some now) := by
  constructor
  · intro exc m hty hval
    exact process_exception_both_empty exc m hty hval
  · intro now fresh_id exc m hty hval
    have h := process_exception_both_empty exc m hty hval
    refine ⟨?_, ?_, ?_, ?_⟩ <;>
      simp [process_event, normalize_security_report, is_security_report,
        normalize_ip_addresses, process_child_values, apply_overrides,
        validate_basic_attributes, default_required_attributes,
        normalize_release_dist, normalize_timestamps, normalize_event_tags,
        normalize_exceptions, normalize_user_agent, infer_event_type,
        c7Event, deletedExceptionSlot, requestFix, userAutoFix, httpIpOf,
        process_user_slot, process_user_fn, encUser,
        Annotated.new, Annotated.apply, Annotated.get_or_insert_with,
        Annotated.set_value, Annotated.empty, h, get_sdk_info, envGet,
        annStrIsEmpty, strOptEmpty, Meta.isEmpty, removeTag, dedupTags,
        validateTagEntry, validateTagFn, RESERVED_TAG_KEYS, Tags.pairs]

/-- Claim C7 witness: the empty exception `{}` is soft-deleted with
`MissingAttribute` and the surrounding event is still normalized. -/
theorem claim_C7_empty_exception_soft_delete_witness :
    process_exception { value := some ({} : Exception), meta := {} } =
      deletedExceptionSlot {} {} ∧
    (process_event {} none 0 "id" (c7Event {} {})).level.value = some .error := by
  refine ⟨claim_C7_empty_exception_soft_delete.1 {} {} rfl rfl, ?_⟩
  exact ((claim_C7_empty_exception_soft_delete.2 0 "id" {} {} rfl rfl).2.2.1)

/-- Claim C10: with exactly one exception (with a present value) and a
present top-level stacktrace, `normalize_exceptions` moves the top-level
stacktrace (with its metadata) into the exception, clears the top-level
slot completely, and the exception's own previous stacktrace is discarded
entirely. -/
theorem claim_C10_stacktrace_moved (e : Event) (vs : Values)
    (a : Annotated Exception) (exc : Exception)
    (hvs : e.exceptions.value = some vs)
    (hlist : vs.values.value = some [a])
    (ha : a.value = some exc)
    (hst : e.stacktrace.value.isSome = true) :
    normalize_exceptions e =
      { e with
        exceptions := { value := some { vs with values := vs.values.set_value (some [{ value := some { exc with stacktrace := e.stacktrace }, meta := a.meta }]) }, meta := e.exceptions.meta },
        stacktrace := Annotated.empty } := by
  unfold normalize_exceptions
  simp [hvs, hlist, ha, hst]

/-- The concrete exception of the C10 witness, carrying its own
stacktrace. -/
def c10Exception : Exception :=
  { ty := Annotated.new "E", stacktrace := Annotated.new ⟨"own"⟩ }

/-- The concrete single-exception event of the C10 witness, with a
top-level stacktrace. -/
def c10Event : Event :=
  { exceptions := Annotated.new { values := Annotated.new [Annotated.new c10Exception] },
    stacktrace := Annotated.new ⟨"toplevel"⟩ }

/-- Claim C10 witness: on the concrete event, the top-level stacktrace
replaces the exception's own stacktrace and the top-level slot is
cleared. -/
theorem claim_C10_stacktrace_moved_witness :
    normalize_exceptions c10Event =
      { exceptions := Annotated.new { values := Annotated.new [Annotated.new { ty := Annotated.new "E", stacktrace := Annotated.new ⟨"toplevel"⟩ }] },
        stacktrace := Annotated.empty } := by
  have h := claim_C10_stacktrace_moved c10Event
    { values := Annotated.new [Annotated.new c10Exception] }
    (Annotated.new c10Exception) c10Exception rfl rfl rfl rfl
  rw [h]
  decide

/-- Claim C2 counterexample: with `max_secs_in_future = 60` at `now =
1000000`, the far-future timestamp `696969696969` is *not* absent from
the output — after the soft delete, `normalize_timestamps` re-defaults
the now-empty timestamp to `now`. -/
theorem claim_C2_counterexample :
    ¬((process_event { max_secs_in_future := some 60, max_secs_in_past := some 3600 } none 1000000 "id" { timestamp := Annotated.new 696969696969 }).timestamp.value = none) := by
  decide

/-- Claim C2 (amended): a timestamp above `now + max_secs_in_future` is
soft-deleted with `FutureTimestamp` (original preserved in meta) and the
cleared slot is then re-defaulted, so the output timestamp equals `now`
(not absent) while `received = now`; symmetrically for `PastTimestamp`;
an absent timestamp defaults to `now`. -/
theorem claim_C2_amended_timestamp_validation (config : StoreConfig)
    (geoip : Option (String → Option String)) (now : Int) (fresh_id : String)
    (e : Event) :
    (process_event config geoip now fresh_id e).received = Annotated.new now ∧
    (∀ ts secs, e.timestamp.value = some ts → config.max_secs_in_future = some secs →
      now + secs < ts →
      (process_event config geoip now fresh_id e).timestamp =
        { value := some now,
          meta := { errors := e.timestamp.meta.errors ++ [ErrorRec.new .futureTimestamp],
                    original_value := some (.int ts) } }) ∧
    (∀ ts secs, e.timestamp.value = some ts →
      (∀ fsecs, config.max_secs_in_future = some fsecs → ts ≤ now + fsecs) →
      config.max_secs_in_past = some secs → ts < now - secs →
      (process_event config geoip now fresh_id e).timestamp =
        { value := some now,
          meta := { errors := e.timestamp.meta.errors ++ [ErrorRec.new .pastTimestamp],
                    original_value := some (.int ts) } }) ∧
    (e.timestamp.value = none →
      (process_event config geoip now fresh_id e).timestamp =
        { value := some now, meta := e.timestamp.meta }) := by
  have key : (process_event config geoip now fresh_id e).timestamp =
      (let t0 := e.timestamp.apply .int fun ts m =>
        if config.max_secs_in_future.any fun secs => decide (now + secs < ts) then
          (ts, m.add_error (ErrorRec.new .futureTimestamp), some .deleteValueSoft)
        else if config.max_secs_in_past.any fun secs => decide (ts < now - secs) then
          (ts, m.add_error (ErrorRec.new .pastTimestamp), some .deleteValueSoft)
        else (ts, m, none)
      if t0.value.isNone then t0.set_value (some now) else t0) := rfl
  refine ⟨rfl, ?_, ?_, ?_⟩
  · intro ts secs hts hcfg hgt
    rw [key]
    simp [Annotated.apply, hts, hcfg, hgt, Meta.add_error, Annotated.set_value]
  · intro ts secs hts hfut hcfg hlt
    have hfb : (config.max_secs_in_future.any fun s => decide (now + s < ts)) = false := by
      cases hf : config.max_secs_in_future with
      | none => rfl
      | some fsecs =>
        have := hfut fsecs hf
        simp [Option.any]
        omega
    rw [key]
    simp [Annotated.apply, hts, hfb, hcfg, hlt, Meta.add_error, Annotated.set_value]
  · intro hts
    rw [key]
    simp [Annotated.apply, hts, Annotated.set_value]

/-- Claim C2 amended witness: the far-future timestamp is cleared with
`FutureTimestamp`, its original kept in meta, and re-defaulted to `now`;
`received` is stamped with `now`. -/
theorem claim_C2_amended_timestamp_validation_witness :
    (process_event { max_secs_in_future := some 60, max_secs_in_past := some 3600 } none 1000000 "id" { timestamp := Annotated.new 696969696969 }).received = Annotated.new 1000000 ∧
    (process_event { max_secs_in_future := some 60, max_secs_in_past := some 3600 } none 1000000 "id" { timestamp := Annotated.new 696969696969 }).timestamp =
      { value := some 1000000,
        meta := { errors := [ErrorRec.new .futureTimestamp],
                  original_value := some (.int 696969696969) } } := by
  have h := claim_C2_amended_timestamp_validation
    { max_secs_in_future := some 60, max_secs_in_past := some 3600 } none 1000000 "id"
    { timestamp := Annotated.new 696969696969 }
  refine ⟨h.1, ?_⟩
  have h2 := h.2.1 696969696969 60 rfl rfl (by omega)
  simpa using h2

/-- Claim C4 counterexample: an invalid platform is *not* absent from the
normalized output — after the soft delete, the defaulting block sets
`platform := "other"`. -/
theorem claim_C4_counterexample :
    is_valid_platform "lean4" = false ∧
    (process_event {} none 0 "id" { platform := Annotated.new "lean4" }).platform.value = some "other" := by
  exact ⟨by decide, by decide⟩

/-- Claim C4 (amended): an input platform outside `VALID_PLATFORMS` is
soft-deleted (the original string preserved in the field's meta) and the
cleared field is then defaulted, so the output platform is `"other"`, not
absent. -/
theorem claim_C4_amended_platform_whitelist (config : StoreConfig)
    (geoip : Option (String → Option String)) (now : Int) (fresh_id : String)
    (e : Event) (p : String)
    (hp : e.platform.value = some p) (hinv : is_valid_platform p = false) :
    (process_event config geoip now fresh_id e).platform =
      { value := some "other",
        meta := { e.platform.meta with original_value := some (.str p) } } := by
  have key : (process_event config geoip now fresh_id e).platform =
      ((e.platform.apply .str fun q m =>
        if is_valid_platform q then (q, m, none)
        else (q, m, some .deleteValueSoft)).get_or_insert_with "other") := rfl
  rw [key]
  simp [Annotated.apply, hp, hinv, Annotated.get_or_insert_with]

/-- Claim C4 amended witness: platform `"lean4"` becomes `"other"` with
the original preserved in meta. -/
theorem claim_C4_amended_platform_whitelist_witness :
    (process_event {} none 0 "id" { platform := Annotated.new "lean4" }).platform =
      { value := some "other", meta := { original_value := some (.str "lean4") } } := by
  have h := claim_C4_amended_platform_whitelist {} none 0 "id"
    { platform := Annotated.new "lean4" } "lean4" rfl (by decide)
  simpa using h

/-- `removeTag` finds nothing when no valued entry carries the key. -/
theorem removeTag_not_found (l : List (Annotated TagEntry)) (k : String)
    (h : ∀ a ∈ l, ∀ p, a.value = some p → ¬(p.key.value = some k)) :
    removeTag l k = (none, l) := by
  induction l with
  | nil => rfl
  | cons a rest ih =>
    have hrest := ih fun b hb => h b (List.mem_cons_of_mem _ hb)
    unfold removeTag
    cases hav : a.value with
    | none => simp [hrest]
    | some p =>
      have hk := h a (List.mem_cons_self _ _) p hav
      simp [hk, hrest]

/-- The environment-refill counterexample event: an invalid top-level
environment together with a legacy `environment` tag. -/
def c8Event : Event :=
  { environment := Annotated.new "none",
    tags := Annotated.new { pairs := [Annotated.new { key := Annotated.new "environment", value := Annotated.new "prod" }] } }

/-- Claim C8 counterexample: for the event with environment `"none"` and
a legacy tag `("environment", "prod")`, the output environment is *not*
absent — the tag move runs after validation and refills the soft-deleted
field with `"prod"`. -/
theorem claim_C8_counterexample :
    INVALID_ENVIRONMENTS.contains "none" = true ∧
    (process_event {} none 0 "id" c8Event).environment.value = some "prod" := by
  exact ⟨by decide, by decide⟩

/-- Claim C8 (amended): an environment in `INVALID_ENVIRONMENTS` is
soft-deleted with `InvalidData` and the original value kept in meta, and
— provided no valued `environment` tag refills the field afterwards — the
output value is absent; a release case-insensitively matching
`INVALID_RELEASES` is always soft-deleted the same way. -/
theorem claim_C8_invalid_environment_release :
    (∀ (config : StoreConfig) (geoip : Option (String → Option String))
       (now : Int) (fresh_id : String) (e : Event) (v : String),
      e.environment.value = some v → INVALID_ENVIRONMENTS.contains v = true →
      (∀ a ∈ (e.tags.value.getD {}).pairs, ∀ p, a.value = some p →
        ¬(p.key.value = some "environment")) →
      (process_event config geoip now fresh_id e).environment =
        { value := none,
          meta := { errors := e.environment.meta.errors ++ [ErrorRec.new .invalidData],
                    original_value := some (.str v) } }) ∧
    (∀ (config : StoreConfig) (geoip : Option (String → Option String))
       (now : Int) (fresh_id : String) (e : Event) (r : String),
      e.release.value = some r →
      (∃ bad ∈ INVALID_RELEASES, eqIgnoreAsciiCase r bad = true) →
      (process_event config geoip now fresh_id e).release =
        { value := none,
          meta := { errors := e.release.meta.errors ++ [ErrorRec.new .invalidData],
                    original_value := some (.str r) } }) := by
  constructor
  · intro config geoip now fresh_id e v hv hbad htags
    have key : (process_event config geoip now fresh_id e).environment =
        (let envA := e.environment.apply .str fun w m =>
          if is_valid_environment w then (w, m, none)
          else (w, m.add_error (ErrorRec.new .invalidData), some .deleteValueSoft)
        let tagsAnn := e.tags.get_or_insert_with {}
        let pairs0 := (tagsAnn.value.getD {}).pairs
        let env0 := if annStrIsEmpty envA then Annotated.empty else envA
        let rp := removeTag pairs0 "environment"
        match rp.1.bind Annotated.value with
        | some tag => env0.get_or_insert_with tag
        | none => env0) := rfl
    have hmem : v ∈ INVALID_ENVIRONMENTS := by simpa using hbad
    have hinv : is_valid_environment v = false := by
      simp [is_valid_environment, hmem]
    have hpairs : (e.tags.get_or_insert_with {}).value.getD {} = e.tags.value.getD {} := by
      cases ht : e.tags.value <;> simp [Annotated.get_or_insert_with, ht]
    rw [key]
    simp only [hpairs]
    have hrm := removeTag_not_found _ "environment" htags
    simp [Annotated.apply, hv, hinv, Meta.add_error, hrm, annStrIsEmpty, strOptEmpty,
      Meta.isEmpty]
  · intro config geoip now fresh_id e r hr hbad
    have key : (process_event config geoip now fresh_id e).release =
        (e.release.apply .str fun w m =>
          if is_valid_release w then (w, m, none)
          else (w, m.add_error (ErrorRec.new .invalidData), some .deleteValueSoft)) := rfl
    have hinv : is_valid_release r = false := by
      obtain ⟨bad, hmem, heq⟩ := hbad
      simp [is_valid_release]
      exact ⟨bad, hmem, heq⟩
    rw [key]
    simp [Annotated.apply, hr, hinv, Meta.add_error]

/-- Claim C8 amended witness: environment `"none"` and release `"Latest"`
are soft-deleted with `InvalidData`, originals preserved. -/
theorem claim_C8_invalid_environment_release_witness :
    (process_event {} none 0 "id" { environment := Annotated.new "none" }).environment =
      { value := none,
        meta := { errors := [ErrorRec.new .invalidData],
                  original_value := some (.str "none") } } ∧
    (process_event {} none 0 "id" { release := Annotated.new "Latest" }).release =
      { value := none,
        meta := { errors := [ErrorRec.new .invalidData],
                  original_value := some (.str "Latest") } } := by
  constructor
  · have h := claim_C8_invalid_environment_release.1 {} none 0 "id"
      { environment := Annotated.new "none" } "none" rfl (by decide) (by simp)
    simpa using h
  · have h := claim_C8_invalid_environment_release.2 {} none 0 "id"
      { release := Annotated.new "Latest" } "Latest" rfl
      ⟨"latest", by decide, by decide⟩
    simpa using h

/-- Looking up a key after a key-preserving rewrite of that key's entries
applies the rewrite to the lookup result. -/
theorem envGet_map_keyfix (env : List (String × Annotated Value)) (k : String)
    (g : Annotated Value → Annotated Value) :
    envGet (env.map fun kv => if kv.1 = k then (kv.1, g kv.2) else kv) k =
      (envGet env k).map g := by
  induction env with
  | nil => rfl
  | cons kv rest ih =>
    by_cases h : kv.1 = k
    · simp [envGet, List.find?_cons, h]
    · simpa [envGet, List.find?_cons, h] using ih

/-- Claim C9: if `request.env["REMOTE_ADDR"]` holds a string that parses
as a valid IP address and `user.ip_address` is not already set, IP
normalization copies that IP into `user.ip_address`, creating the user
object if it was absent. -/
theorem claim_C9_remote_addr_ip (config : StoreConfig) (e : Event)
    (req : Request) (env : List (String × Annotated Value))
    (ann : Annotated Value) (s : String)
    (hreq : e.request.value = some req) (henv : req.env.value = some env)
    (hget : envGet env "REMOTE_ADDR" = some ann) (hann : ann.value = some (.str s))
    (hip : is_valid_ipv4 s = true)
    (huser : e.user.value = none ∨ ∃ u, e.user.value = some u ∧ u.ip_address.value = none) :
    ∃ u', (normalize_ip_addresses config e).user.value = some u' ∧
      u'.ip_address.value = some s := by
  have hsne : (s = autoSentinel) = False := by
    by_cases h : s = autoSentinel
    · rw [h] at hip; exact absurd hip (by decide)
    · simp [h]
  unfold normalize_ip_addresses
  have hhttp : httpIpOf (requestFix config e.request) = some s := by
    cases hcip : config.client_ip with
    | none =>
      simp [requestFix, hcip, httpIpOf, hreq, henv, hget, hann, Value.as_str,
        IpAddr.parse, hip]
    | some cip =>
      have hmap := envGet_map_keyfix env "REMOTE_ADDR" fun a =>
        { a with value := a.value.map (autoFixValue cip) }
      simp [requestFix, hcip, httpIpOf, hreq, henv, hmap, hget, hann, hsne,
        autoFixValue, Value.as_str, IpAddr.parse, hip]
  dsimp only
  rw [hhttp]
  cases hcip : config.client_ip with
  | none =>
    rcases huser with h | ⟨u, hu, hipnone⟩
    · simp [userAutoFix, hcip, h, Annotated.get_or_insert_with]
    · simp [userAutoFix, hcip, hu, hipnone, Annotated.get_or_insert_with]
  | some cip =>
    rcases huser with h | ⟨u, hu, hipnone⟩
    · simp [userAutoFix, hcip, h, Annotated.get_or_insert_with]
    · simp [userAutoFix, hcip, hu, hipnone, Annotated.get_or_insert_with]

/-- The concrete REMOTE_ADDR scenario event of claim C9. -/
def c9Event : Event :=
  { platform := Annotated.new "javascript",
    request := Annotated.new { env := Annotated.new [("REMOTE_ADDR", Annotated.new (Value.str "213.47.147.207"))] } }

/-- Claim C9 witness: `REMOTE_ADDR = "213.47.147.207"` yields
`user.ip_address = "213.47.147.207"`. -/
theorem claim_C9_remote_addr_ip_witness :
    ∃ u', (normalize_ip_addresses {} c9Event).user.value = some u' ∧
      u'.ip_address.value = some "213.47.147.207" :=
  claim_C9_remote_addr_ip {} c9Event
    { env := Annotated.new [("REMOTE_ADDR", Annotated.new (Value.str "213.47.147.207"))] }
    [("REMOTE_ADDR", Annotated.new (Value.str "213.47.147.207"))]
    (Annotated.new (Value.str "213.47.147.207")) "213.47.147.207"
    rfl rfl rfl rfl (by decide) (Or.inl rfl)

/-- The keys of the tag entries that still have a value. -/
def tagKeys (l : List (Annotated TagEntry)) : List String :=
  l.filterMap fun a => a.value.bind fun p => p.key.value

/-- The keys of the valued tag entries of an event. -/
def outputTagKeys (e : Event) : List String :=
  tagKeys (e.tags.value.getD {}).pairs

/-- Deduplication yields pairwise-distinct keys, all outside the running
seen set. -/
theorem dedupTags_keys (l : List (Annotated TagEntry)) : ∀ seen : List String,
    (tagKeys (dedupTags seen l)).Nodup ∧
    ∀ k ∈ tagKeys (dedupTags seen l), ¬k ∈ seen := by
  induction l with
  | nil => intro seen; simp [dedupTags, tagKeys]
  | cons a rest ih =>
    intro seen
    unfold dedupTags
    cases hav : a.value with
    | none =>
      have h := ih seen
      simpa [tagKeys, hav] using h
    | some p =>
      by_cases hres : p.key.value.getD "" ∈ RESERVED_TAG_KEYS
      · simpa [hres] using ih seen
      · by_cases hseen : p.key.value.getD "" ∈ seen
        · simpa [hres, hseen] using ih seen
        · cases hk : p.key.value with
          | none =>
            rw [hk] at hres
            exact absurd (by decide) hres
          | some name =>
            rw [hk] at hres hseen
            dsimp only
            rw [hk]
            obtain ⟨hnd, hout⟩ := ih (name :: seen)
            have h1 : ¬RESERVED_TAG_KEYS.contains name = true := by simpa using hres
            have h2 : ¬seen.contains name = true := by simpa using hseen
            have hkeys : tagKeys (a :: dedupTags (name :: seen) rest) =
                name :: tagKeys (dedupTags (name :: seen) rest) := by
              simp [tagKeys, hav, hk]
            simp only [Option.getD_some, if_neg h1, if_neg h2]
            rw [hkeys]
            constructor
            · refine List.nodup_cons.mpr ⟨fun hmem => ?_, hnd⟩
              exact hout name hmem (List.mem_cons_self _ _)
            · intro k hkmem hkseen
              rcases List.mem_cons.mp hkmem with rfl | hkmem'
              · exact hseen hkseen
              · exact hout k hkmem' (List.mem_cons_of_mem _ hkseen)

/-- The first component of the tag-validation closure is always the
input tag. -/
theorem validateTagFn_fst (t : TagEntry) (m : Meta) : (validateTagFn t m).1 = t := by
  unfold validateTagFn
  dsimp only
  repeat' split
  all_goals rfl

/-- Tag validation either keeps the entry's value or clears it. -/
theorem validateTagEntry_value_cases (a : Annotated TagEntry) :
    (validateTagEntry a).value = a.value ∨ (validateTagEntry a).value = none := by
  unfold validateTagEntry Annotated.apply
  cases hav : a.value with
  | none => exact Or.inl (by simp [hav])
  | some p =>
    have hfst : (validateTagFn p a.meta).1 = p := validateTagFn_fst p a.meta
    rcases hr : validateTagFn p a.meta with ⟨v', m', r⟩
    have hv' : v' = p := by simpa [hr] using hfst
    subst hv'
    cases r with
    | none => exact Or.inl (by simp [hr, hav])
    | some act => cases act <;> exact Or.inr (by simp [hr])

/-- Unfolding `tagKeys` over a valueless entry. -/
theorem tagKeys_cons_none (a : Annotated TagEntry) (rest : List (Annotated TagEntry))
    (hav : a.value = none) : tagKeys (a :: rest) = tagKeys rest := by
  simp [tagKeys, List.filterMap_cons, hav]

/-- Unfolding `tagKeys` over a valued entry without a key. -/
theorem tagKeys_cons_nokey (a : Annotated TagEntry) (rest : List (Annotated TagEntry))
    (p : TagEntry) (hav : a.value = some p) (hpk : p.key.value = none) :
    tagKeys (a :: rest) = tagKeys rest := by
  simp [tagKeys, List.filterMap_cons, hav, hpk]

/-- Unfolding `tagKeys` over a valued entry with a key. -/
theorem tagKeys_cons_key (a : Annotated TagEntry) (rest : List (Annotated TagEntry))
    (p : TagEntry) (k : String) (hav : a.value = some p) (hpk : p.key.value = some k) :
    tagKeys (a :: rest) = k :: tagKeys rest := by
  simp [tagKeys, List.filterMap_cons, hav, hpk]

/-- Unfolding `insertTag` past a valueless entry. -/
theorem insertTag_cons_none (a : Annotated TagEntry) (rest : List (Annotated TagEntry))
    (k : String) (v : Annotated String) (hav : a.value = none) :
    insertTag (a :: rest) k v = a :: insertTag rest k v := by
  rw [insertTag.eq_def]
  simp [hav]

/-- Unfolding `insertTag` at the matching entry. -/
theorem insertTag_cons_hit (a : Annotated TagEntry) (rest : List (Annotated TagEntry))
    (k : String) (v : Annotated String) (p : TagEntry)
    (hav : a.value = some p) (hk : p.key.value = some k) :
    insertTag (a :: rest) k v =
      { value := some { p with value := v }, meta := a.meta } :: rest := by
  rw [insertTag.eq_def]
  simp [hav, hk]

/-- Unfolding `insertTag` past a non-matching valued entry. -/
theorem insertTag_cons_miss (a : Annotated TagEntry) (rest : List (Annotated TagEntry))
    (k : String) (v : Annotated String) (p : TagEntry)
    (hav : a.value = some p) (hk : ¬p.key.value = some k) :
    insertTag (a :: rest) k v = a :: insertTag rest k v := by
  rw [insertTag.eq_def]
  simp [hav, hk]

/-- Validation only removes keys: the valued keys of the validated list
form a sublist of the original valued keys. -/
theorem tagKeys_validate_sublist (l : List (Annotated TagEntry)) :
    List.Sublist (tagKeys (l.map validateTagEntry)) (tagKeys l) := by
  induction l with
  | nil => simp [tagKeys]
  | cons a rest ih =>
    rcases validateTagEntry_value_cases a with hsame | hnone
    · cases hav : a.value with
      | none =>
        rw [hav] at hsame
        rw [List.map_cons, tagKeys_cons_none _ _ hsame, tagKeys_cons_none _ _ hav]
        exact ih
      | some p =>
        rw [hav] at hsame
        cases hpk : p.key.value with
        | none =>
          rw [List.map_cons, tagKeys_cons_nokey _ _ p hsame hpk,
            tagKeys_cons_nokey _ _ p hav hpk]
          exact ih
        | some k =>
          rw [List.map_cons, tagKeys_cons_key _ _ p k hsame hpk,
            tagKeys_cons_key _ _ p k hav hpk]
          exact ih.cons₂ k
    · cases hav : a.value with
      | none =>
        rw [List.map_cons, tagKeys_cons_none _ _ hnone, tagKeys_cons_none _ _ hav]
        exact ih
      | some p =>
        cases hpk : p.key.value with
        | none =>
          rw [List.map_cons, tagKeys_cons_none _ _ hnone,
            tagKeys_cons_nokey _ _ p hav hpk]
          exact ih
        | some k =>
          rw [List.map_cons, tagKeys_cons_none _ _ hnone,
            tagKeys_cons_key _ _ p k hav hpk]
          exact ih.cons k

/-- Every key after an insert is an old key or the inserted key. -/
theorem tagKeys_insertTag_subset (l : List (Annotated TagEntry)) (k : String)
    (v : Annotated String) :
    ∀ x ∈ tagKeys (insertTag l k v), x ∈ tagKeys l ∨ x = k := by
  induction l with
  | nil =>
    intro x hx
    right
    simpa [insertTag, tagKeys, Annotated.new] using hx
  | cons a rest ih =>
    intro x hx
    cases hav : a.value with
    | none =>
      rw [insertTag_cons_none _ _ _ _ hav, tagKeys_cons_none _ _ hav] at hx
      rw [tagKeys_cons_none _ _ hav]
      exact ih x hx
    | some p =>
      by_cases hk : p.key.value = some k
      · rw [insertTag_cons_hit _ _ _ _ p hav hk,
          tagKeys_cons_key _ _ { p with value := v } k rfl hk] at hx
        rcases List.mem_cons.mp hx with rfl | hx'
        · exact Or.inr rfl
        · rw [tagKeys_cons_key _ _ p k hav hk]
          exact Or.inl (List.mem_cons_of_mem _ hx')
      · rw [insertTag_cons_miss _ _ _ _ p hav hk] at hx
        cases hpk : p.key.value with
        | none =>
          rw [tagKeys_cons_nokey _ _ p hav hpk] at hx
          rw [tagKeys_cons_nokey _ _ p hav hpk]
          exact ih x hx
        | some q =>
          rw [tagKeys_cons_key _ _ p q hav hpk] at hx
          rw [tagKeys_cons_key _ _ p q hav hpk]
          rcases List.mem_cons.mp hx with rfl | hx'
          · exact Or.inl (List.mem_cons_self _ _)
          · rcases ih x hx' with h | h
            · exact Or.inl (List.mem_cons_of_mem _ h)
            · exact Or.inr h

/-- Inserting a tag preserves the distinctness of the valued keys. -/
theorem tagKeys_insertTag_nodup (l : List (Annotated TagEntry)) (k : String)
    (v : Annotated String) (hnd : (tagKeys l).Nodup) :
    (tagKeys (insertTag l k v)).Nodup := by
  induction l with
  | nil => simp [insertTag, tagKeys, Annotated.new]
  | cons a rest ih =>
    cases hav : a.value with
    | none =>
      rw [tagKeys_cons_none _ _ hav] at hnd
      rw [insertTag_cons_none _ _ _ _ hav, tagKeys_cons_none _ _ hav]
      exact ih hnd
    | some p =>
      by_cases hk : p.key.value = some k
      · rw [insertTag_cons_hit _ _ _ _ p hav hk,
          tagKeys_cons_key _ _ { p with value := v } k rfl hk]
        rw [tagKeys_cons_key _ _ p k hav hk] at hnd
        exact hnd
      · rw [insertTag_cons_miss _ _ _ _ p hav hk]
        cases hpk : p.key.value with
        | none =>
          rw [tagKeys_cons_nokey _ _ p hav hpk] at hnd
          rw [tagKeys_cons_nokey _ _ p hav hpk]
          exact ih hnd
        | some q =>
          have hq : ¬q = k := by rw [hpk] at hk; simpa using hk
          rw [tagKeys_cons_key _ _ p q hav hpk] at hnd
          have hnotin := List.nodup_cons.mp hnd
          rw [tagKeys_cons_key _ _ p q hav hpk]
          refine List.nodup_cons.mpr ⟨fun hmem => ?_, ih hnotin.2⟩
          rcases tagKeys_insertTag_subset rest k v q hmem with h | h
          · exact hnotin.1 h
          · exact hq h

/-- Conditionally inserting a tag preserves key distinctness. -/
theorem nodup_ite_insert (c : Prop) [Decidable c] (l : List (Annotated TagEntry))
    (k : String) (v : Annotated String) (h : (tagKeys l).Nodup) :
    (tagKeys (if c then insertTag l k v else l)).Nodup := by
  split
  · exact tagKeys_insertTag_nodup l k v h
  · exact h

/-- The five-tag deduplication scenario event of claim C5. -/
def c5Event : Event :=
  { tags := Annotated.new { pairs := [
      Annotated.new { key := Annotated.new "foo", value := Annotated.new "1" },
      Annotated.new { key := Annotated.new "bar", value := Annotated.new "1" },
      Annotated.new { key := Annotated.new "foo", value := Annotated.new "2" },
      Annotated.new { key := Annotated.new "bar", value := Annotated.new "2" },
      Annotated.new { key := Annotated.new "foo", value := Annotated.new "3" }] } }

/-- Claim C5: tag normalization deduplicates by key keeping the first
occurrence, so the keys of the output tag entries that still have a value
are pairwise distinct; on the seeded five-tag input only
`("foo","1"), ("bar","1")` survive. -/
theorem claim_C5_tag_keys_unique (config : StoreConfig)
    (geoip : Option (String → Option String)) (now : Int) (fresh_id : String)
    (e : Event) :
    (outputTagKeys (process_event config geoip now fresh_id e)).Nodup ∧
    (process_event {} none 0 "id" c5Event).tags =
      Annotated.new { pairs := [Annotated.new { key := Annotated.new "foo", value := Annotated.new "1" }, Annotated.new { key := Annotated.new "bar", value := Annotated.new "1" }] } := by
  constructor
  · have key : outputTagKeys (process_event config geoip now fresh_id e) =
        tagKeys (
          let pairs3 := (dedupTags [] (removeTag ((e.tags.get_or_insert_with { pairs := [] }).value.getD { pairs := [] }).pairs "environment").2).map validateTagEntry
          let pairs4 := if e.server_name.value.isSome then insertTag pairs3 "server_name" e.server_name else pairs3
          if e.site.value.isSome then insertTag pairs4 "site" e.site else pairs4) := rfl
    rw [key]
    dsimp only
    have h3 := List.Nodup.sublist
      (tagKeys_validate_sublist (dedupTags [] (removeTag ((e.tags.get_or_insert_with { pairs := [] }).value.getD { pairs := [] }).pairs "environment").2))
      (dedupTags_keys (removeTag ((e.tags.get_or_insert_with { pairs := [] }).value.getD { pairs := [] }).pairs "environment").2 []).1
    exact nodup_ite_insert _ _ _ _ (nodup_ite_insert _ _ _ _ h3)
  · decide

/-- The idempotence counterexample event: a legacy `environment` tag with
an invalid value. -/
def c3Event : Event :=
  { tags := Annotated.new { pairs := [Annotated.new { key := Annotated.new "environment", value := Annotated.new "none" }] } }

/-- Claim C3 counterexample: normalization is not idempotent, even with
`is_renormalize = true` on the second call.  On
`tags = [("environment","none")]`, the first pass moves `"none"` into the
(already validated) environment field; the second pass rejects it, so the
results differ. -/
theorem claim_C3_counterexample :
    ¬(process_event { is_renormalize := some true } none 0 "x"
        (process_event {} none 0 "x" c3Event) =
      process_event {} none 0 "x" c3Event) := by
  decide

/-! ## Fixpoint lemmas for the renormalization pass -/

theorem Annotated.apply_of_value_none {α} (a : Annotated α) (enc : α → Orig)
    (f : α → Meta → α × Meta × ProcessingResult) (h : a.value = none) :
    a.apply enc f = a := by
  simp [Annotated.apply, h]

theorem Annotated.apply_of_ok {α} (a : Annotated α) (enc : α → Orig)
    (f : α → Meta → α × Meta × ProcessingResult) (v : α)
    (hv : a.value = some v) (hf : f v a.meta = (v, a.meta, none)) :
    a.apply enc f = a := by
  cases a
  simp only at hv
  subst hv
  simp [Annotated.apply, hf]

theorem Annotated.get_or_insert_isSome {α} (a : Annotated α) (d : α) :
    (a.get_or_insert_with d).value.isSome = true := rfl

theorem Annotated.get_or_insert_of_isSome {α} (a : Annotated α) (d : α)
    (h : a.value.isSome = true) : a.get_or_insert_with d = a := by
  cases a with
  | mk value meta =>
    cases value with
    | none => simp at h
    | some v => simp [Annotated.get_or_insert_with]

/-- An option map by a function that fixes the present value is the
identity. -/
theorem Option.map_of_fix {α} (o : Option α) (F : α → α)
    (h : ∀ v, o = some v → F v = v) : o.map F = o := by
  cases ho : o with
  | none => rfl
  | some v => simp [h v ho]

/-- The shape of an exception that the `process_exception` hook leaves
unchanged: not both fields empty, and if the type is still empty the
value cannot match the split regex. -/
def excOkB (exc : Exception) : Bool :=
  !(strOptEmpty exc.ty.value && strOptEmpty exc.value.value) &&
  (!strOptEmpty exc.ty.value ||
    (match exc.value.value with
     | some s => (splitTypeValue s).isNone
     | none => true))

/-- An exception satisfying `excOkB` is not split. -/
theorem exceptionSplit_of_excOk (exc : Exception) (h : excOkB exc = true) :
    exceptionSplit exc = exc := by
  simp only [excOkB, Bool.and_eq_true, Bool.or_eq_true, Bool.not_eq_true'] at h
  rcases h.2 with h2 | h2
  · exact exceptionSplit_of_ty exc h2
  · refine exceptionSplit_no_match exc fun s hs => ?_
    rw [hs] at h2
    simpa using h2

/-- A hook-fixed exception passes through `process_exception`
unchanged. -/
theorem process_exception_of_excOk (exc : Exception) (m : Meta)
    (h : excOkB exc = true) :
    process_exception { value := some exc, meta := m } =
      { value := some exc, meta := m } := by
  have hne : (strOptEmpty exc.ty.value && strOptEmpty exc.value.value) = false := by
    simp only [excOkB, Bool.and_eq_true, Bool.not_eq_true'] at h
    exact h.1
  rw [process_exception_eq, exceptionSplit_of_excOk exc h]
  simp [hne]

/-- Whatever `process_exception` keeps is hook-fixed. -/
theorem process_exception_result_excOk (a : Annotated Exception)
    (exc' : Exception) (h : (process_exception a).value = some exc') :
    excOkB exc' = true := by
  cases hav : a.value with
  | none =>
    rw [show process_exception a = a from
      Annotated.apply_of_value_none _ _ _ hav, hav] at h
    cases h
  | some exc =>
    have ha' : a = { value := some exc, meta := a.meta } := by
      cases a; simp_all
    rw [ha', process_exception_eq] at h
    by_cases hc : (strOptEmpty (exceptionSplit exc).ty.value &&
        strOptEmpty (exceptionSplit exc).value.value) = true
    · rw [if_pos hc] at h
      simp at h
    · rw [Bool.not_eq_true] at hc
      rw [if_neg (by simp [hc])] at h
      simp only at h
      have hx : exceptionSplit exc = exc' := by simpa using h
      subst hx
      by_cases hty : strOptEmpty exc.ty.value = true
      · cases hv : exc.value.value with
        | none =>
          have he : exceptionSplit exc = exc := by
            refine exceptionSplit_no_match exc fun s hs => ?_
            rw [hv] at hs; cases hs
          rw [he] at hc
          exact absurd hc (by rw [hty]; simp [hv, strOptEmpty])
        | some s =>
          cases hs : splitTypeValue s with
          | none =>
            have he : exceptionSplit exc = exc := by
              refine exceptionSplit_no_match exc fun s2 hs2 => ?_
              rw [hv] at hs2; cases hs2; exact hs
            rw [he] at hc ⊢
            simp [hty, hv] at hc
            simp [excOkB, hc, hty, hv, hs]
          | some tv =>
            obtain ⟨t, v⟩ := tv
            have he := exceptionSplit_match exc s t v hty hv hs
            have htne := splitTypeValue_fst_ne_empty hs
            rw [he]
            simp [excOkB, Annotated.set_value, strOptEmpty, htne]
      · rw [Bool.not_eq_true] at hty
        have he := exceptionSplit_of_ty exc hty
        rw [he] at hc ⊢
        simp [excOkB, hc, hty]

/-- `process_exception` is idempotent on any slot. -/
theorem process_exception_idem (a : Annotated Exception) :
    process_exception (process_exception a) = process_exception a := by
  cases hv : (process_exception a).value with
  | none =>
    exact Annotated.apply_of_value_none _ _ _ hv
  | some exc' =>
    have hok := process_exception_result_excOk a exc' hv
    have : process_exception a = { value := some exc', meta := (process_exception a).meta } := by
      cases hpa : process_exception a
      rw [hpa] at hv
      simp_all
    rw [this]
    exact process_exception_of_excOk exc' _ hok

/-- Evaluating `apply` when the hook keeps the value. -/
theorem Annotated.apply_keep {α} (a : Annotated α) (enc : α → Orig)
    (f : α → Meta → α × Meta × ProcessingResult) (v : α)
    (hv : a.value = some v) (hr : (f v a.meta).2.2 = none) :
    a.apply enc f = { value := some (f v a.meta).1, meta := (f v a.meta).2.1 } := by
  cases a with
  | mk av m =>
    simp only at hv
    subst hv
    simp only [Annotated.apply]
    rcases hfn : f v m with ⟨v', m', r⟩
    rw [hfn] at hr
    simp only at hr
    subst hr
    simp [hfn]

/-- The user hook keeps and leaves the metadata alone. -/
theorem process_user_fn_parts (geoip : Option (String → Option String))
    (u : User) (m : Meta) :
    (process_user_fn geoip u m).2.1 = m ∧ (process_user_fn geoip u m).2.2 = none :=
  ⟨rfl, rfl⟩

/-- `process_user` at its slot is idempotent. -/
theorem process_user_slot_idem (geoip : Option (String → Option String))
    (u : Annotated User) :
    process_user_slot geoip (process_user_slot geoip u) =
      process_user_slot geoip u := by
  unfold process_user_slot
  cases hv : u.value with
  | none =>
    rw [Annotated.apply_of_value_none _ _ _ hv]
    exact Annotated.apply_of_value_none _ _ _ hv
  | some usr =>
    rw [Annotated.apply_keep u encUser (process_user_fn geoip) usr hv rfl]
    set usr' := (process_user_fn geoip usr u.meta).1 with husr'
    rw [show (process_user_fn geoip usr u.meta).2.1 = u.meta from rfl]
    rw [Annotated.apply_keep { value := some usr', meta := u.meta } encUser
      (process_user_fn geoip) usr' rfl rfl]
    have hfix : (process_user_fn geoip usr' u.meta).1 = usr' := by
      rw [husr']
      unfold process_user_fn
      by_cases hg : usr.geo.value.isNone = true
      · cases hgi : geoip with
        | none => simp [hg, hgi]
        | some lookup =>
          cases hip : usr.ip_address.value with
          | none => simp [hg, hgi, hip]
          | some ip =>
            cases hlk : lookup ip with
            | none => simp [hg, hgi, hip, hlk]
            | some geo => simp [hg, hgi, hip, hlk, Annotated.set_value]
      · simp [hg]
    rw [show (process_user_fn geoip usr' u.meta).2.1 = u.meta from rfl, hfix]

theorem Annotated.set_value_none_self {α} (a : Annotated α) (h : a.value = none) :
    a.set_value none = a := by
  cases a with
  | mk av m =>
    cases av with
    | none => rfl
    | some v => exact absurd h (by simp)

theorem infer_event_type_of_new (X : Event) (τ : EventType)
    (h : X.ty = Annotated.new τ) : infer_event_type X = τ := by
  simp [infer_event_type, h, Annotated.new]

/-- The override block fixes an event whose server fields already match
the config. -/
theorem apply_overrides_fix (c : StoreConfig) (X : Event)
    (hp : X.project = { value := c.project_id })
    (hk : X.key_id = { value := c.key_id })
    (hv : X.version = { value := c.protocol_version })
    (hg : X.grouping_config =
      (match c.grouping_config with
       | some x => Annotated.new x
       | none => Annotated.empty))
    (ht : ∃ τ, X.ty = Annotated.new τ) :
    apply_overrides c X = X := by
  obtain ⟨τ, hτ⟩ := ht
  unfold apply_overrides
  rw [infer_event_type_of_new X τ hτ, ← hp, ← hk, ← hv, ← hg, ← hτ]

/-- The validation block fixes an event whose enumerations are already
valid or absent. -/
theorem validate_basic_attributes_fix (X : Event)
    (hplat : ∀ p, X.platform.value = some p → is_valid_platform p = true)
    (henv : ∀ v, X.environment.value = some v → is_valid_environment v = true)
    (hrel : ∀ r, X.release.value = some r → is_valid_release r = true) :
    validate_basic_attributes X = X := by
  unfold validate_basic_attributes
  have h1 : (X.platform.apply .str fun p m =>
      if is_valid_platform p then (p, m, none)
      else (p, m, some .deleteValueSoft)) = X.platform := by
    cases hvp : X.platform.value with
    | none => exact Annotated.apply_of_value_none _ _ _ hvp
    | some p => exact Annotated.apply_of_ok _ _ _ p hvp (by simp [hplat p hvp])
  have h2 : (X.environment.apply .str fun v m =>
      if is_valid_environment v then (v, m, none)
      else (v, m.add_error (ErrorRec.new .invalidData), some .deleteValueSoft)) =
      X.environment := by
    cases hve : X.environment.value with
    | none => exact Annotated.apply_of_value_none _ _ _ hve
    | some v => exact Annotated.apply_of_ok _ _ _ v hve (by simp [henv v hve])
  have h3 : (X.release.apply .str fun r m =>
      if is_valid_release r then (r, m, none)
      else (r, m.add_error (ErrorRec.new .invalidData), some .deleteValueSoft)) =
      X.release := by
    cases hvr : X.release.value with
    | none => exact Annotated.apply_of_value_none _ _ _ hvr
    | some r => exact Annotated.apply_of_ok _ _ _ r hvr (by simp [hrel r hvr])
  rw [h1, h2, h3]

/-- The defaulting block fixes an event whose required attributes are
already present. -/
theorem default_required_attributes_fix (c : StoreConfig) (fid : String)
    (X : Event)
    (h1 : X.errors.value.isSome = true) (h2 : X.level.value.isSome = true)
    (h3 : X.id.value.isSome = true) (h4 : X.platform.value.isSome = true)
    (h5 : X.logger.value.isSome = true) (h6 : X.extra.value.isSome = true)
    (hcs : X.client_sdk.value = none → get_sdk_info c = none) :
    default_required_attributes c fid X = X := by
  unfold default_required_attributes
  rw [Annotated.get_or_insert_of_isSome _ _ h1, Annotated.get_or_insert_of_isSome _ _ h2,
    Annotated.get_or_insert_of_isSome _ _ h3, Annotated.get_or_insert_of_isSome _ _ h4,
    Annotated.get_or_insert_of_isSome _ _ h5, Annotated.get_or_insert_of_isSome _ _ h6]
  have hcs' : (if X.client_sdk.value.isNone then X.client_sdk.set_value (get_sdk_info c)
      else X.client_sdk) = X.client_sdk := by
    cases hv : X.client_sdk.value with
    | some v => simp
    | none =>
      rw [if_pos (by simp), hcs hv]
      exact Annotated.set_value_none_self _ hv
  rw [hcs']

/-- The release/dist coupling fixes an event whose dist is already
trimmed and backed by a non-empty release. -/
theorem normalize_release_dist_fix (X : Event)
    (hd : ∀ d, X.dist.value = some d →
      strOptEmpty X.release.value = false ∧ trimStr d = d) :
    normalize_release_dist X = X := by
  have hdist0 : (if X.dist.value.isSome && strOptEmpty X.release.value then
      X.dist.set_value none else X.dist) = X.dist := by
    cases hv : X.dist.value with
    | none => simp
    | some d => simp [(hd d hv).1]
  have hdist1 : (match X.dist.value with
      | some d => if trimStr d ≠ d then X.dist.set_value (some (trimStr d)) else X.dist
      | none => X.dist) = X.dist := by
    cases hv : X.dist.value with
    | none => simp
    | some d => simp [(hd d hv).2]
  unfold normalize_release_dist
  simp only [hdist0]
  simp only [hdist1]

/-- The timestamp block fixes an event that is already stamped and in
range. -/
theorem normalize_timestamps_fix (c : StoreConfig) (now : Int) (X : Event)
    (hrec : X.received = Annotated.new now)
    (hts : X.timestamp.value.isSome = true)
    (hok : ∀ t, X.timestamp.value = some t →
      (c.max_secs_in_future.any fun secs => decide (now + secs < t)) = false ∧
      (c.max_secs_in_past.any fun secs => decide (t < now - secs)) = false)
    (hsp : ∀ v, X.time_spent.value = some v → v < 2147483647) :
    normalize_timestamps c now X = X := by
  obtain ⟨t, ht⟩ := Option.isSome_iff_exists.mp hts
  obtain ⟨hfut, hpast⟩ := hok t ht
  have h1 : (X.timestamp.apply .int fun ts m =>
      if c.max_secs_in_future.any fun secs => decide (now + secs < ts) then
        (ts, m.add_error (ErrorRec.new .futureTimestamp), some .deleteValueSoft)
      else if c.max_secs_in_past.any fun secs => decide (ts < now - secs) then
        (ts, m.add_error (ErrorRec.new .pastTimestamp), some .deleteValueSoft)
      else (ts, m, none)) = X.timestamp :=
    Annotated.apply_of_ok _ _ _ t ht (by simp [hfut, hpast])
  have h2 : (X.time_spent.apply .nat fun v m =>
      (v, m, validate_bounded_integer_field v)) = X.time_spent := by
    cases hv : X.time_spent.value with
    | none => exact Annotated.apply_of_value_none _ _ _ hv
    | some v =>
      exact Annotated.apply_of_ok _ _ _ v hv
        (by simp [validate_bounded_integer_field, hsp v hv])
  have h3 : (if X.timestamp.value.isNone then X.timestamp.set_value (some now)
      else X.timestamp) = X.timestamp := by simp [ht]
  unfold normalize_timestamps
  simp only [h1]
  simp only [h3]
  simp only [h2]
  rw [← hrec]

set_option maxHeartbeats 1000000 in
/-- `normalize_exceptions` fixes an event in which no stacktrace move is
possible. -/
theorem normalize_exceptions_fix (X : Event)
    (h : ∀ vs lst a exc, X.exceptions.value = some vs →
      vs.values.value = some lst → lst = [a] → a.value = some exc →
      X.stacktrace.value.isSome = false) :
    normalize_exceptions X = X := by
  have hp : (match X.exceptions.value with
      | some vs =>
        match vs.values.value with
        | some excs =>
          if excs.length = 1 && X.stacktrace.value.isSome then
            match excs with
            | [a] =>
              match a.value with
              | some exc =>
                let excs' : List (Annotated Exception) :=
                  [{ value := some { exc with stacktrace := X.stacktrace }, meta := a.meta }]
                ({ value := some { vs with values := vs.values.set_value (some excs') },
                   meta := X.exceptions.meta },
                 Annotated.empty)
              | none => (X.exceptions, X.stacktrace)
            | _ => (X.exceptions, X.stacktrace)
          else (X.exceptions, X.stacktrace)
        | none => (X.exceptions, X.stacktrace)
      | none => (X.exceptions, X.stacktrace)) = (X.exceptions, X.stacktrace) := by
    cases hvs : X.exceptions.value with
    | none => rfl
    | some vs =>
      dsimp only
      cases hls : vs.values.value with
      | none => rfl
      | some lst =>
        dsimp only
        by_cases hcond : (lst.length = 1 && X.stacktrace.value.isSome) = true
        · have hcond' := hcond
          simp only [Bool.and_eq_true, decide_eq_true_eq] at hcond'
          obtain ⟨a, rfl⟩ : ∃ a, lst = [a] := by
            cases lst with
            | nil => simp at hcond'
            | cons a t =>
              cases t with
              | nil => exact ⟨a, rfl⟩
              | cons b t2 =>
                exfalso
                have := hcond'.1
                simp only [List.length_cons] at this
                omega
          rw [if_pos hcond]
          dsimp only
          cases hav : a.value with
          | none => rfl
          | some exc =>
            have hfalse := h vs [a] a exc hvs hls rfl hav
            rw [hcond'.2] at hfalse
            cases hfalse
        · rw [if_neg hcond]
  unfold normalize_exceptions
  simp only [hp]

/-- A list map by a function that fixes every element is the identity. -/
theorem list_map_of_fix {α} (l : List α) (F : α → α)
    (h : ∀ a ∈ l, F a = a) : l.map F = l := by
  induction l with
  | nil => rfl
  | cons a t ih =>
    simp only [List.map_cons]
    rw [h a (List.mem_cons_self _ _), ih fun b hb => h b (List.mem_cons_of_mem _ hb)]

/-- The head surviving a `dropWhile` fails the predicate. -/
theorem dropWhile_head_false {α} (p : α → Bool) (l : List α) :
    ∀ a t, l.dropWhile p = a :: t → p a = false := by
  induction l with
  | nil => intro a t h; cases h
  | cons b l ih =>
    intro a t h
    rw [List.dropWhile_cons] at h
    by_cases hb : p b = true
    · rw [if_pos hb] at h
      exact ih a t h
    · rw [if_neg hb] at h
      cases h
      simpa using hb

/-- A list whose head fails the predicate is fixed by `dropWhile`. -/
theorem dropWhile_eq_self_of {α} (p : α → Bool) (l : List α)
    (h : ∀ a t, l = a :: t → p a = false) : l.dropWhile p = l := by
  cases l with
  | nil => rfl
  | cons a t => rw [List.dropWhile_cons, if_neg (by simp [h a t rfl])]

/-- `dropWhile` is idempotent. -/
theorem dropWhile_idem {α} (p : α → Bool) (l : List α) :
    (l.dropWhile p).dropWhile p = l.dropWhile p :=
  dropWhile_eq_self_of p _ fun a t h => dropWhile_head_false p l a t h

/-- `dropWhile` yields a suffix. -/
theorem dropWhile_suffix_eq {α} (p : α → Bool) (l : List α) :
    ∃ s, s ++ l.dropWhile p = l := by
  induction l with
  | nil => exact ⟨[], rfl⟩
  | cons a t ih =>
    rw [List.dropWhile_cons]
    by_cases ha : p a = true
    · rw [if_pos ha]
      obtain ⟨s, hs⟩ := ih
      exact ⟨a :: s, by rw [List.cons_append, hs]⟩
    · rw [if_neg ha]
      exact ⟨[], rfl⟩

/-- `str::trim` is idempotent. -/
theorem trimStr_idem (s : String) : trimStr (trimStr s) = trimStr s := by
  obtain ⟨s0, hs0⟩ := dropWhile_suffix_eq Char.isWhitespace
    ((s.data.dropWhile Char.isWhitespace).reverse)
  have hA : s.data.dropWhile Char.isWhitespace =
      ((s.data.dropWhile Char.isWhitespace).reverse.dropWhile Char.isWhitespace).reverse
        ++ s0.reverse := by
    simpa [List.reverse_append] using (congrArg List.reverse hs0).symm
  have h1 : (((s.data.dropWhile Char.isWhitespace).reverse.dropWhile
      Char.isWhitespace).reverse).dropWhile Char.isWhitespace =
      ((s.data.dropWhile Char.isWhitespace).reverse.dropWhile Char.isWhitespace).reverse := by
    refine dropWhile_eq_self_of _ _ fun a t h => ?_
    refine dropWhile_head_false Char.isWhitespace s.data a (t ++ s0.reverse) ?_
    rw [hA, h, List.cons_append]
  show (⟨((((((s.data.dropWhile Char.isWhitespace).reverse.dropWhile
      Char.isWhitespace).reverse).dropWhile Char.isWhitespace).reverse).dropWhile
      Char.isWhitespace).reverse⟩ : String) =
    ⟨((s.data.dropWhile Char.isWhitespace).reverse.dropWhile Char.isWhitespace).reverse⟩
  rw [h1, List.reverse_reverse, dropWhile_idem]

/-- `normalize_security_report` fixes an event that is not a security
report, or whose logger is present and whose user already carries the
config's client IP. -/
theorem normalize_security_report_fix (c : StoreConfig) (X : Event)
    (hlog : is_security_report X = true → X.logger.value.isSome = true)
    (husr : is_security_report X = true → ∀ cip, c.client_ip = some cip →
      ∃ usr, X.user.value = some usr ∧ usr.ip_address = Annotated.new cip) :
    normalize_security_report c X = X := by
  have hp : (if !is_security_report X then (X.logger, X.user)
      else
        let logger := X.logger.get_or_insert_with "csp"
        let user :=
          match c.client_ip with
          | some client_ip =>
            let u := X.user.get_or_insert_with {}
            { u with value := u.value.map fun usr =>
                { usr with ip_address := Annotated.new client_ip } }
          | none => X.user
        (logger, user)) = (X.logger, X.user) := by
    cases hsec : is_security_report X with
    | false => rfl
    | true =>
      rw [if_neg (by simp)]
      have hU : (match c.client_ip with
          | some client_ip =>
            let u := X.user.get_or_insert_with {}
            { u with value := u.value.map fun usr =>
                { usr with ip_address := Annotated.new client_ip } }
          | none => X.user) = X.user := by
        cases hcip : c.client_ip with
        | none => rfl
        | some cip =>
          obtain ⟨usr, husr0, hip⟩ := husr hsec cip hcip
          dsimp only
          rw [Annotated.get_or_insert_of_isSome _ _ (by rw [husr0]; rfl)]
          have hF : ({ usr with ip_address := Annotated.new cip } : User) = usr := by
            rw [← hip]
          have hm : X.user.value.map (fun usr =>
              ({ usr with ip_address := Annotated.new cip } : User)) = X.user.value := by
            rw [husr0]
            exact congrArg some hF
          rw [hm]
      dsimp only
      rw [Annotated.get_or_insert_of_isSome _ _ (hlog hsec), hU]
  unfold normalize_security_report
  simp only [hp]

/-- An option map by an idempotent function is idempotent. -/
theorem Option.map_idem {α} (o : Option α) (F : α → α)
    (h : ∀ a, F (F a) = F a) : (o.map F).map F = o.map F := by
  cases o with
  | none => rfl
  | some a => exact congrArg some (h a)

/-- A list map by an idempotent function is idempotent. -/
theorem list_map_idem {α} (l : List α) (F : α → α)
    (h : ∀ a, F (F a) = F a) : (l.map F).map F = l.map F := by
  induction l with
  | nil => rfl
  | cons a t ih =>
    simp only [List.map_cons]
    rw [h a, ih]

/-- The auto-sentinel rewrite on a single value is idempotent. -/
theorem autoFixValue_idem (cip : String) (v : Value) :
    autoFixValue cip (autoFixValue cip v) = autoFixValue cip v := by
  cases v with
  | other o => rfl
  | str s =>
    show autoFixValue cip (if s = autoSentinel then Value.str cip else Value.str s) =
      (if s = autoSentinel then Value.str cip else Value.str s)
    by_cases hs : s = autoSentinel
    · rw [if_pos hs]
      show (if cip = autoSentinel then Value.str cip else Value.str cip) = Value.str cip
      rw [ite_self]
    · rw [if_neg hs]
      show (if s = autoSentinel then Value.str cip else Value.str s) = Value.str s
      rw [if_neg hs]

/-- The request half of the auto-resolution is idempotent. -/
theorem requestFix_idem (c : StoreConfig) (r : Annotated Request) :
    requestFix c (requestFix c r) = requestFix c r := by
  cases hcip : c.client_ip with
  | none => unfold requestFix; rw [hcip]
  | some cip =>
    unfold requestFix
    rw [hcip]
    dsimp only
    congr 1
    refine Option.map_idem _ _ fun req => ?_
    dsimp only
    congr 1
    congr 1
    refine Option.map_idem _ _ fun env => ?_
    refine list_map_idem _ _ fun kv => ?_
    by_cases hk : kv.1 = "REMOTE_ADDR"
    · dsimp only
      rw [if_pos hk]
      dsimp only
      rw [if_pos hk]
      rw [Option.map_idem _ _ (autoFixValue_idem cip)]
    · dsimp only
      rw [if_neg hk, if_neg hk]

/-- The user IP slots on which `userAutoFix` can act are already resolved:
any auto sentinel present equals the config's client IP. -/
def ipResolved (c : StoreConfig) (u : Annotated User) : Prop :=
  ∀ usr, u.value = some usr → ∀ v, usr.ip_address.value = some v →
    ipIsAuto v = true → c.client_ip = some v

/-- Without a configured client IP the user half of the auto-resolution
is the identity. -/
theorem userAutoFix_of_none (c : StoreConfig) (u : Annotated User)
    (h : c.client_ip = none) : userAutoFix c u = u := by
  unfold userAutoFix
  rw [h]

/-- The user half of the auto-resolution fixes a resolved slot. -/
theorem userAutoFix_of_resolved (c : StoreConfig) (u : Annotated User)
    (h : ipResolved c u) : userAutoFix c u = u := by
  cases hcip : c.client_ip with
  | none => exact userAutoFix_of_none c u hcip
  | some cip =>
    unfold userAutoFix
    rw [hcip]
    dsimp only
    have hm : u.value.map (fun usr =>
        ({ usr with ip_address := { usr.ip_address with
            value := usr.ip_address.value.map fun user_ip =>
              if ipIsAuto user_ip then cip else user_ip } } : User)) = u.value := by
      refine Option.map_of_fix _ _ fun usr husr => ?_
      have hip : usr.ip_address.value.map (fun user_ip =>
          if ipIsAuto user_ip then cip else user_ip) = usr.ip_address.value := by
        refine Option.map_of_fix _ _ fun v hv => ?_
        by_cases hauto : ipIsAuto v = true
        · have hcv := h usr husr v hv hauto
          rw [hcip] at hcv
          rw [if_pos hauto]
          exact Option.some.inj hcv
        · rw [if_neg hauto]
      rw [hip]
    rw [hm]

/-- After the user half of the auto-resolution the slot is resolved. -/
theorem userAutoFix_resolved (c : StoreConfig) (u : Annotated User) (cip : String)
    (hcip : c.client_ip = some cip) : ipResolved c (userAutoFix c u) := by
  intro usr husr v hv hauto
  unfold userAutoFix at husr
  rw [hcip] at husr
  dsimp only at husr
  cases hmap : u.value with
  | none =>
    rw [hmap] at husr
    cases husr
  | some usr0 =>
    rw [hmap] at husr
    dsimp only [Option.map] at husr
    injection husr with husr'
    subst husr'
    dsimp only at hv
    cases hip0 : usr0.ip_address.value with
    | none =>
      rw [hip0] at hv
      cases hv
    | some v0 =>
      rw [hip0] at hv
      dsimp only [Option.map] at hv
      injection hv with hv'
      by_cases hauto0 : ipIsAuto v0 = true
      · rw [if_pos hauto0] at hv'
        rw [hcip, hv']
      · rw [if_neg hauto0] at hv'
        subst hv'
        exact absurd hauto hauto0

/-- `normalize_ip_addresses` fixes an event whose request and user are
fixed under the auto-resolution and whose user already carries an IP
wherever the step would copy one. -/
theorem normalize_ip_addresses_fix (c : StoreConfig) (X : Event)
    (hreq : requestFix c X.request = X.request)
    (huaf : userAutoFix c X.user = X.user)
    (hhttp : ∀ hip, httpIpOf X.request = some hip →
      ∃ usr, X.user.value = some usr ∧ usr.ip_address.value.isSome = true)
    (hback : httpIpOf X.request = none → ∀ cip, c.client_ip = some cip →
      ∃ usr, X.user.value = some usr ∧
        (usr.ip_address.value.isNone = true →
          isClientIpPlatform X.platform.value = false)) :
    normalize_ip_addresses c X = X := by
  have hU : (match httpIpOf X.request with
      | some hip =>
        let u := X.user.get_or_insert_with {}
        { u with value := u.value.map fun usr =>
            { usr with ip_address := usr.ip_address.get_or_insert_with hip } }
      | none =>
        match c.client_ip with
        | some client_ip =>
          let u := X.user.get_or_insert_with {}
          { u with value := u.value.map fun usr =>
              if usr.ip_address.value.isNone then
                if isClientIpPlatform X.platform.value then
                  { usr with ip_address := Annotated.new client_ip }
                else usr
              else usr }
        | none => X.user) = X.user := by
    cases hh : httpIpOf X.request with
    | some hip =>
      obtain ⟨usr, husr0, hip0⟩ := hhttp hip hh
      dsimp only
      rw [Annotated.get_or_insert_of_isSome _ _ (by rw [husr0]; rfl)]
      have hF : ({ usr with ip_address := usr.ip_address.get_or_insert_with hip } : User)
          = usr := by
        rw [Annotated.get_or_insert_of_isSome _ _ hip0]
      have hm : X.user.value.map (fun usr =>
          ({ usr with ip_address := usr.ip_address.get_or_insert_with hip } : User)) =
          X.user.value := by
        rw [husr0]
        exact congrArg some hF
      rw [hm]
    | none =>
      dsimp only
      cases hcip : c.client_ip with
      | none => rfl
      | some cip =>
        obtain ⟨usr, husr0, hcond⟩ := hback hh cip hcip
        dsimp only
        rw [Annotated.get_or_insert_of_isSome _ _ (by rw [husr0]; rfl)]
        have hF : (if usr.ip_address.value.isNone then
            if isClientIpPlatform X.platform.value then
              ({ usr with ip_address := Annotated.new cip } : User)
            else usr
          else usr) = usr := by
          by_cases hni : usr.ip_address.value.isNone = true
          · rw [if_pos hni, hcond hni, if_neg (by simp)]
          · rw [if_neg hni]
        have hm : X.user.value.map (fun usr =>
            if usr.ip_address.value.isNone then
              if isClientIpPlatform X.platform.value then
                ({ usr with ip_address := Annotated.new cip } : User)
              else usr
            else usr) = X.user.value := by
          rw [husr0]
          exact congrArg some hF
        rw [hm]
  unfold normalize_ip_addresses
  simp only [hreq, huaf]
  simp only [hU]

/-- `process_child_values` fixes an event whose user slot and exception
slots are hook-fixed. -/
theorem process_child_values_fix (geoip : Option (String → Option String))
    (X : Event)
    (huser : process_user_slot geoip X.user = X.user)
    (hexc : ∀ vs lst a, X.exceptions.value = some vs →
      vs.values.value = some lst → a ∈ lst → process_exception a = a) :
    process_child_values geoip X = X := by
  have hE : ({ X.exceptions with value := X.exceptions.value.map fun vs =>
      { vs with values := { vs.values with
          value := vs.values.value.map (List.map process_exception) } } } :
      Annotated Values) = X.exceptions := by
    have hm : X.exceptions.value.map (fun vs =>
        ({ vs with values := { vs.values with
            value := vs.values.value.map (List.map process_exception) } } : Values)) =
        X.exceptions.value := by
      refine Option.map_of_fix _ _ fun vs hvs => ?_
      have hm2 : vs.values.value.map (List.map process_exception) = vs.values.value := by
        refine Option.map_of_fix _ _ fun lst hlst => ?_
        exact list_map_of_fix _ _ fun a ha => hexc vs lst a hvs hlst ha
      rw [hm2]
    rw [hm]
  unfold process_child_values
  simp only [huser, hE]

/-- The shape of a tag entry that every tag pass preserves: a present,
non-reserved, in-bounds key that is not the legacy `environment` key, and
(when present) a non-empty in-bounds value. -/
def tagEntryGood (p : TagEntry) : Prop :=
  (∃ k, p.key.value = some k ∧ RESERVED_TAG_KEYS.contains k = false ∧
    ¬(k = "environment") ∧ ¬(numChars k > maxCharsTagKey)) ∧
  (∀ v, p.value.value = some v → ¬(v = "") ∧ ¬(numChars v > maxCharsTagValue))

/-- Deduplication fixes a list whose valued entries have pairwise-distinct
non-reserved keys outside the seen set. -/
theorem dedupTags_fix (l : List (Annotated TagEntry)) : ∀ seen : List String,
    (∀ a ∈ l, ∀ p, a.value = some p → ∃ k, p.key.value = some k ∧
      RESERVED_TAG_KEYS.contains k = false ∧ seen.contains k = false) →
    (tagKeys l).Nodup → dedupTags seen l = l := by
  induction l with
  | nil =>
    intro seen _ _
    rfl
  | cons a rest ih =>
    intro seen h1 h2
    unfold dedupTags
    cases hav : a.value with
    | none =>
      dsimp only
      rw [ih seen (fun b hb => h1 b (List.mem_cons_of_mem _ hb))
        (by rw [tagKeys_cons_none _ _ hav] at h2; exact h2)]
    | some p =>
      obtain ⟨k, hk, hres, hseen⟩ := h1 a (List.mem_cons_self _ _) p hav
      rw [tagKeys_cons_key _ _ p k hav hk] at h2
      have h2' := List.nodup_cons.mp h2
      have harg : ∀ b ∈ rest, ∀ q, b.value = some q → ∃ k2, q.key.value = some k2 ∧
          RESERVED_TAG_KEYS.contains k2 = false ∧ (k :: seen).contains k2 = false := by
        intro b hb q hq
        obtain ⟨k2, hk2, hres2, hseen2⟩ := h1 b (List.mem_cons_of_mem _ hb) q hq
        refine ⟨k2, hk2, hres2, ?_⟩
        have hk2mem : k2 ∈ tagKeys rest := by
          simp only [tagKeys, List.mem_filterMap]
          exact ⟨b, hb, by rw [hq]; simpa using hk2⟩
        have hne : ¬(k2 = k) := fun hEq => h2'.1 (hEq ▸ hk2mem)
        simp only [List.contains_cons, hseen2, Bool.or_false]
        exact beq_eq_false_iff_ne.mpr hne
      dsimp only
      rw [hk]
      simp only [Option.getD_some]
      rw [if_neg (by simpa using hres), if_neg (by simpa using hseen),
        ih (k :: seen) harg h2'.2]

/-- Validation keeps a tag entry whose key and value are in bounds. -/
theorem validateTagEntry_fix (a : Annotated TagEntry)
    (hk : ∀ p, a.value = some p → ∀ k, p.key.value = some k →
      ¬(numChars k > maxCharsTagKey))
    (hv : ∀ p, a.value = some p → ∀ v, p.value.value = some v →
      ¬(v = "") ∧ ¬(numChars v > maxCharsTagValue)) :
    validateTagEntry a = a := by
  unfold validateTagEntry
  cases hav : a.value with
  | none => exact Annotated.apply_of_value_none _ _ _ hav
  | some p =>
    refine Annotated.apply_of_ok _ _ _ p hav ?_
    have hcheck : (match p.value.value with
        | some v =>
          if v == "" then
            (p, a.meta.add_error ErrorRec.nonempty, some ProcessingAction.deleteValueHard)
          else if numChars v > maxCharsTagValue then
            (p, a.meta.add_error (ErrorRec.new .valueTooLong),
              some ProcessingAction.deleteValueHard)
          else (p, a.meta, none)
        | none => (p, a.meta, none)) = (p, a.meta, (none : ProcessingResult)) := by
      cases hpv : p.value.value with
      | none => rfl
      | some v =>
        obtain ⟨hv1, hv2⟩ := hv p hav v hpv
        dsimp only
        rw [if_neg (by simp [hv1]), if_neg hv2]
    unfold validateTagFn
    dsimp only
    cases hpk : p.key.value with
    | none => exact hcheck
    | some k =>
      dsimp only
      rw [if_neg (hk p hav k hpk)]
      exact hcheck

/-- `normalize_event_tags` fixes an event whose tags are present with good
pairwise-distinct entries, whose environment survives the emptiness reset,
and whose `server_name`/`site` have already been moved out. -/
theorem normalize_event_tags_fix (X : Event) (T : Tags)
    (hT : X.tags.value = some T)
    (hgood : ∀ a ∈ T.pairs, ∀ p, a.value = some p → tagEntryGood p)
    (hnodup : (tagKeys T.pairs).Nodup)
    (henv : (if annStrIsEmpty X.environment then Annotated.empty
        else X.environment) = X.environment)
    (hsn : X.server_name = Annotated.empty)
    (hsite : X.site = Annotated.empty) :
    normalize_event_tags X = X := by
  have htagsAnn : X.tags.get_or_insert_with {} = X.tags :=
    Annotated.get_or_insert_of_isSome _ _ (by rw [hT]; rfl)
  have hrm : removeTag T.pairs "environment" = (none, T.pairs) := by
    refine removeTag_not_found _ _ fun a ha p hp hc => ?_
    obtain ⟨⟨k, hk, _, hke, _⟩, _⟩ := hgood a ha p hp
    rw [hk] at hc
    exact hke (Option.some.inj hc)
  have hdd : dedupTags [] T.pairs = T.pairs := by
    refine dedupTags_fix _ [] (fun a ha p hp => ?_) hnodup
    obtain ⟨⟨k, hk, hres, _, _⟩, _⟩ := hgood a ha p hp
    exact ⟨k, hk, hres, rfl⟩
  have hvv : T.pairs.map validateTagEntry = T.pairs := by
    refine list_map_of_fix _ _ fun a ha => ?_
    refine validateTagEntry_fix a (fun p hp k hk0 => ?_) (fun p hp v hv0 => ?_)
    · obtain ⟨⟨k2, hk2, _, _, hlen⟩, _⟩ := hgood a ha p hp
      rw [hk0] at hk2
      rw [Option.some.inj hk2]
      exact hlen
    · obtain ⟨_, hval⟩ := hgood a ha p hp
      exact hval v hv0
  have hif1 : ∀ l : List (Annotated TagEntry),
      (if X.server_name.value.isSome then insertTag l "server_name" X.server_name
       else l) = l := by
    intro l
    rw [hsn]
    rfl
  have hif2 : ∀ l : List (Annotated TagEntry),
      (if X.site.value.isSome then insertTag l "site" X.site else l) = l := by
    intro l
    rw [hsite]
    rfl
  have hTags2 : ({ value := some { pairs := T.pairs }, meta := X.tags.meta } :
      Annotated Tags) = X.tags := by
    rw [show ({ pairs := T.pairs } : Tags) = T from rfl, ← hT]
  unfold normalize_event_tags
  simp only [htagsAnn, hT, Option.getD_some, henv, hrm, Option.none_bind, hdd, hvv,
    hif1, hif2]
  rw [hTags2]
  nth_rewrite 1 [← hsn]
  rw [← hsite]

/-- Inversion for `apply`: a surviving value was present and kept. -/
theorem Annotated.apply_value_some {α} (a : Annotated α) (enc : α → Orig)
    (f : α → Meta → α × Meta × ProcessingResult) (v' : α)
    (h : (a.apply enc f).value = some v') :
    ∃ v, a.value = some v ∧ (f v a.meta).1 = v' ∧ (f v a.meta).2.2 = none := by
  cases hav : a.value with
  | none =>
    rw [Annotated.apply_of_value_none _ _ _ hav, hav] at h
    cases h
  | some v =>
    refine ⟨v, rfl, ?_⟩
    unfold Annotated.apply at h
    rw [hav] at h
    dsimp only at h
    rcases hf : f v a.meta with ⟨w, m, r⟩
    rw [hf] at h
    cases r with
    | none => exact ⟨Option.some.inj h, rfl⟩
    | some act =>
      cases act with
      | deleteValueSoft => exact Option.noConfusion h
      | deleteValueHard => exact Option.noConfusion h

/-- Whatever survives the platform whitelist is valid. -/
theorem platform_validate_sound (x : Event) (p : String)
    (h : (validate_basic_attributes x).platform.value = some p) :
    is_valid_platform p = true := by
  have h' : (x.platform.apply Orig.str fun p m =>
      if is_valid_platform p then (p, m, none)
      else (p, m, some .deleteValueSoft)).value = some p := h
  obtain ⟨v, hv, h1, h2⟩ := Annotated.apply_value_some _ _ _ _ h'
  by_cases hval : is_valid_platform v = true
  · rw [if_pos hval] at h1
    dsimp only at h1
    rw [← h1]
    exact hval
  · rw [if_neg hval] at h2
    dsimp only at h2
    cases h2

/-- Whatever survives the environment validation is valid. -/
theorem env_validate_sound (x : Event) (v : String)
    (h : (validate_basic_attributes x).environment.value = some v) :
    is_valid_environment v = true := by
  have h' : (x.environment.apply Orig.str fun v m =>
      if is_valid_environment v then (v, m, none)
      else (v, m.add_error (ErrorRec.new .invalidData), some .deleteValueSoft)).value
      = some v := h
  obtain ⟨w, hw, h1, h2⟩ := Annotated.apply_value_some _ _ _ _ h'
  by_cases hval : is_valid_environment w = true
  · rw [if_pos hval] at h1
    dsimp only at h1
    rw [← h1]
    exact hval
  · rw [if_neg hval] at h2
    dsimp only at h2
    cases h2

/-- Whatever survives the release validation is valid. -/
theorem release_validate_sound (x : Event) (r : String)
    (h : (validate_basic_attributes x).release.value = some r) :
    is_valid_release r = true := by
  have h' : (x.release.apply Orig.str fun r m =>
      if is_valid_release r then (r, m, none)
      else (r, m.add_error (ErrorRec.new .invalidData), some .deleteValueSoft)).value
      = some r := h
  obtain ⟨w, hw, h1, h2⟩ := Annotated.apply_value_some _ _ _ _ h'
  by_cases hval : is_valid_release w = true
  · rw [if_pos hval] at h1
    dsimp only at h1
    rw [← h1]
    exact hval
  · rw [if_neg hval] at h2
    dsimp only at h2
    cases h2

/-- The defaulted platform is always valid. -/
theorem platform_defaulted_sound (x : Event) (p : String)
    (h : ((validate_basic_attributes x).platform.get_or_insert_with "other").value
      = some p) : is_valid_platform p = true := by
  cases hv : (validate_basic_attributes x).platform.value with
  | none =>
    have h2 : some (((validate_basic_attributes x).platform.value).getD "other")
        = some p := h
    rw [hv] at h2
    have hp : p = "other" := (Option.some.inj h2).symm
    subst hp
    decide
  | some q =>
    have h2 : some (((validate_basic_attributes x).platform.value).getD "other")
        = some p := h
    rw [hv] at h2
    have hq : q = p := Option.some.inj h2
    subst hq
    exact platform_validate_sound x q hv

/-- The timestamp defaulting always yields a present value. -/
theorem ts_default_isSome (a0 : Annotated Int) (now : Int) :
    (if a0.value.isNone then a0.set_value (some now) else a0).value.isSome = true := by
  cases ha : a0.value with
  | none =>
    rw [if_pos (show (none : Option Int).isNone = true from rfl)]
    rfl
  | some t =>
    rw [if_neg (by simp)]
    rw [ha]
    rfl

/-- The timestamp defaulting yields the old value or `now`. -/
theorem ts_default_cases (a0 : Annotated Int) (now t : Int)
    (h : (if a0.value.isNone then a0.set_value (some now) else a0).value = some t) :
    t = now ∨ a0.value = some t := by
  cases ha : a0.value with
  | none =>
    rw [if_pos (by rw [ha]; rfl)] at h
    exact Or.inl (Option.some.inj h).symm
  | some t0 =>
    rw [if_neg (by rw [ha]; simp)] at h
    rw [← ha]
    exact Or.inr h

/-- The `dist` trimming pass leaves only trim-fixed values, over a present
input. -/
theorem dist_trim_sound (a0 : Annotated String) (d : String)
    (h : (match a0.value with
      | some d0 => if trimStr d0 ≠ d0 then a0.set_value (some (trimStr d0)) else a0
      | none => a0).value = some d) :
    trimStr d = d ∧ a0.value.isSome = true := by
  cases ha : a0.value with
  | none =>
    rw [ha] at h
    dsimp only at h
    rw [ha] at h
    cases h
  | some d0 =>
    rw [ha] at h
    dsimp only at h
    by_cases htr : trimStr d0 ≠ d0
    · rw [if_pos htr] at h
      have hd : trimStr d0 = d := Option.some.inj h
      refine ⟨?_, rfl⟩
      rw [← hd]
      exact trimStr_idem d0
    · rw [if_neg htr] at h
      rw [ha] at h
      have hd : d0 = d := Option.some.inj h
      subst hd
      exact ⟨not_not.mp htr, rfl⟩

/-- A surviving `dist` implies a non-empty release and a trim-fixed
value. -/
theorem release_dist_sound (x : Event) (d : String)
    (h : (normalize_release_dist x).dist.value = some d) :
    strOptEmpty x.release.value = false ∧ trimStr d = d := by
  obtain ⟨htrim, hsome⟩ := dist_trim_sound (if x.dist.value.isSome &&
    strOptEmpty x.release.value then x.dist.set_value none else x.dist) d h
  refine ⟨?_, htrim⟩
  by_cases hr : strOptEmpty x.release.value = true
  · exfalso
    by_cases hds : x.dist.value.isSome = true
    · rw [if_pos (by rw [hds, hr]; rfl)] at hsome
      simp [Annotated.set_value] at hsome
    · have hds' : x.dist.value.isSome = false := by simpa using hds
      rw [if_neg (by simp [hds'])] at hsome
      rw [hds'] at hsome
      exact Bool.noConfusion hsome
  · simpa using hr

/-- The time-spent bound check only keeps in-range values. -/
theorem time_spent_sound (a : Annotated Nat) (v : Nat)
    (h : (a.apply Orig.nat fun v m =>
      (v, m, validate_bounded_integer_field v)).value = some v) :
    v < 2147483647 := by
  obtain ⟨w, hw, h1, h2⟩ := Annotated.apply_value_some _ _ _ _ h
  dsimp only at h1 h2
  unfold validate_bounded_integer_field at h2
  by_cases hb : w < 2147483647
  · rw [← h1]
    exact hb
  · rw [if_neg hb] at h2
    cases h2

/-- The SDK-info defaulting leaves an absent value only when the config
yields none. -/
theorem client_sdk_default_sound (a : Annotated ClientSdkInfo) (c : StoreConfig)
    (h : (if a.value.isNone then a.set_value (get_sdk_info c) else a).value = none) :
    get_sdk_info c = none := by
  cases ha : a.value with
  | none =>
    rw [if_pos (by rw [ha]; rfl)] at h
    exact h
  | some v =>
    rw [if_neg (by rw [ha]; simp)] at h
    rw [ha] at h
    cases h

/-- The user hook never touches the IP. -/
theorem process_user_fn_ip (g : Option (String → Option String)) (usr : User)
    (m : Meta) : (process_user_fn g usr m).1.ip_address = usr.ip_address := by
  unfold process_user_fn
  dsimp only
  repeat' split
  all_goals rfl

/-- The user hook at its slot keeps a present value and its IP. -/
theorem process_user_slot_keeps (g : Option (String → Option String))
    (u : Annotated User) (usr : User) (hu : u.value = some usr) :
    (process_user_slot g u).value = some ((process_user_fn g usr u.meta).1) ∧
    ((process_user_fn g usr u.meta).1).ip_address = usr.ip_address := by
  constructor
  · show (u.apply encUser (process_user_fn g)).value = _
    rw [Annotated.apply_keep u encUser (process_user_fn g) usr hu rfl]
  · exact process_user_fn_ip g usr u.meta

/-- The user hook preserves IP resolution. -/
theorem process_user_slot_resolved (c : StoreConfig)
    (g : Option (String → Option String)) (u : Annotated User)
    (h : ipResolved c u) : ipResolved c (process_user_slot g u) := by
  intro usr husr v hv hauto
  cases hu : u.value with
  | none =>
    rw [show process_user_slot g u = u from Annotated.apply_of_value_none _ _ _ hu,
      hu] at husr
    cases husr
  | some w =>
    obtain ⟨hkeep, hipeq⟩ := process_user_slot_keeps g u w hu
    rw [hkeep] at husr
    have husr2 := Option.some.inj husr
    subst husr2
    rw [hipeq] at hv
    exact h w hu v hv hauto

/-- A parsed IP is never the auto sentinel. -/
theorem IpAddr_parse_not_auto (s t : String) (h : IpAddr.parse s = some t) :
    ipIsAuto t = false := by
  unfold IpAddr.parse at h
  by_cases hv : is_valid_ipv4 s = true
  · rw [if_pos hv] at h
    have hts : s = t := Option.some.inj h
    subst hts
    by_cases ha : ipIsAuto s = true
    · exfalso
      have hs : s = autoSentinel := by simpa [ipIsAuto] using ha
      rw [hs] at hv
      exact absurd hv (by decide)
    · simpa using ha
  · rw [if_neg hv] at h
    cases h

/-- The request-derived IP is never the auto sentinel. -/
theorem httpIpOf_not_auto (r : Annotated Request) (hip : String)
    (h : httpIpOf r = some hip) : ipIsAuto hip = false := by
  unfold httpIpOf at h
  rcases hb : (r.value.bind fun req => req.env.value.bind fun env =>
      (envGet env "REMOTE_ADDR").bind fun ann => ann.value.bind Value.as_str)
    with _ | s
  · rw [hb] at h
    cases h
  · rw [hb] at h
    exact IpAddr_parse_not_auto s hip h

/-- On a security report with a configured client IP the report step pins
the user's IP to the client IP. -/
theorem sec_report_user_ip (c : StoreConfig) (e : Event) (cip : String)
    (hsec : is_security_report e = true) (hcip : c.client_ip = some cip) :
    ∃ usr, (normalize_security_report c e).user.value = some usr ∧
      usr.ip_address = Annotated.new cip := by
  refine ⟨{ e.user.value.getD {} with ip_address := Annotated.new cip }, ?_, rfl⟩
  unfold normalize_security_report
  dsimp only
  rw [hsec]
  rw [if_neg (by decide)]
  dsimp only
  rw [hcip]
  rfl

/-- The IP step keeps a user IP already pinned to the client IP. -/
theorem ip_step_user_pinned (c : StoreConfig) (x : Event) (cip : String)
    (hcip : c.client_ip = some cip)
    (h : ∃ usr, x.user.value = some usr ∧ usr.ip_address = Annotated.new cip) :
    ∃ usr, (normalize_ip_addresses c x).user.value = some usr ∧
      usr.ip_address = Annotated.new cip := by
  obtain ⟨usr, husr, hip⟩ := h
  have h0 : ∃ usr0, (userAutoFix c x.user).value = some usr0 ∧
      usr0.ip_address = Annotated.new cip := by
    unfold userAutoFix
    rw [hcip]
    dsimp only
    rw [husr]
    dsimp only [Option.map]
    refine ⟨_, rfl, ?_⟩
    dsimp only
    rw [hip]
    dsimp only [Annotated.new, Option.map]
    rw [ite_self]
  obtain ⟨usr0, h0v, h0ip⟩ := h0
  unfold normalize_ip_addresses
  dsimp only
  cases hh : httpIpOf (requestFix c x.request) with
  | some hip0 =>
    dsimp only
    rw [Annotated.get_or_insert_of_isSome _ _ (by rw [h0v]; rfl)]
    rw [h0v]
    dsimp only [Option.map]
    refine ⟨_, rfl, ?_⟩
    dsimp only
    rw [h0ip]
    rfl
  | none =>
    rw [hcip]
    dsimp only
    rw [Annotated.get_or_insert_of_isSome _ _ (by rw [h0v]; rfl)]
    rw [h0v]
    dsimp only [Option.map]
    refine ⟨_, rfl, ?_⟩
    dsimp only
    rw [h0ip, if_neg (by simp [Annotated.new])]
    exact h0ip

/-- When the request yields an IP, the IP step leaves the user with a
present IP. -/
theorem ip_step_user_of_http (c : StoreConfig) (x : Event) (hip : String)
    (hh : httpIpOf (requestFix c x.request) = some hip) :
    ∃ usr, (normalize_ip_addresses c x).user.value = some usr ∧
      usr.ip_address.value.isSome = true := by
  unfold normalize_ip_addresses
  dsimp only
  rw [hh]
  dsimp only
  refine ⟨_, rfl, rfl⟩

/-- When the request yields no IP but a client IP is configured, the IP
step leaves a user whose absent IP implies a non-client platform. -/
theorem ip_step_user_of_back (c : StoreConfig) (x : Event) (cip : String)
    (hh : httpIpOf (requestFix c x.request) = none) (hcip : c.client_ip = some cip) :
    ∃ usr, (normalize_ip_addresses c x).user.value = some usr ∧
      (usr.ip_address.value.isNone = true →
        isClientIpPlatform x.platform.value = false) := by
  unfold normalize_ip_addresses
  dsimp only
  rw [hh]
  dsimp only
  rw [hcip]
  dsimp only
  refine ⟨_, rfl, ?_⟩
  intro hni
  cases hplat : isClientIpPlatform x.platform.value with
  | false => rfl
  | true =>
    exfalso
    rw [hplat] at hni
    dsimp only at hni
    by_cases hw : ((userAutoFix c x.user).value.getD
        ({} : User)).ip_address.value.isNone = true
    · rw [if_pos hw, if_pos rfl] at hni
      simp [Annotated.new] at hni
    · rw [if_neg hw] at hni
      exact hw hni

/-- After the IP step (with a configured client IP) the user slot is
resolved. -/
theorem ip_step_resolved (c : StoreConfig) (x : Event) (cip : String)
    (hcip : c.client_ip = some cip) :
    ipResolved c (normalize_ip_addresses c x).user := by
  have hres0 : ipResolved c (userAutoFix c x.user) :=
    userAutoFix_resolved c x.user cip hcip
  intro usr husr v hv hauto
  unfold normalize_ip_addresses at husr
  dsimp only at husr
  cases hh : httpIpOf (requestFix c x.request) with
  | some hip =>
    rw [hh] at husr
    dsimp only [Annotated.get_or_insert_with, Option.map] at husr
    injection husr with he
    subst he
    dsimp only at hv
    injection hv with hv2
    cases hwip : ((userAutoFix c x.user).value.getD ({} : User)).ip_address.value with
    | none =>
      rw [hwip] at hv2
      dsimp only [Option.getD] at hv2
      subst hv2
      have hna := httpIpOf_not_auto (requestFix c x.request) hip hh
      rw [hna] at hauto
      exact Bool.noConfusion hauto
    | some v0 =>
      rw [hwip] at hv2
      dsimp only [Option.getD] at hv2
      subst hv2
      cases huv : (userAutoFix c x.user).value with
      | none =>
        rw [huv] at hwip
        dsimp only [Option.getD] at hwip
        exact Option.noConfusion hwip
      | some w0 =>
        rw [huv] at hwip
        dsimp only [Option.getD] at hwip
        exact hres0 w0 huv v0 hwip hauto
  | none =>
    rw [hh] at husr
    rw [hcip] at husr
    dsimp only [Annotated.get_or_insert_with, Option.map] at husr
    injection husr with he
    subst he
    by_cases hwip : ((userAutoFix c x.user).value.getD
        ({} : User)).ip_address.value.isNone = true
    · rw [if_pos hwip] at hv
      cases hcp : isClientIpPlatform x.platform.value with
      | true =>
        rw [hcp, if_pos rfl] at hv
        have hcv : cip = v := Option.some.inj hv
        rw [hcip, hcv]
      | false =>
        rw [hcp, if_neg (by simp)] at hv
        rw [hv] at hwip
        simp at hwip
    · rw [if_neg hwip] at hv
      cases huv : (userAutoFix c x.user).value with
      | none =>
        rw [huv] at hv
        dsimp only [Option.getD] at hv
        exact Option.noConfusion hv
      | some w0 =>
        rw [huv] at hv
        dsimp only [Option.getD] at hv
        exact hres0 w0 huv v hv hauto

/-- `excOkB` ignores the stacktrace. -/
theorem excOkB_stacktrace (exc : Exception) (st : Annotated Stacktrace) :
    excOkB { exc with stacktrace := st } = excOkB exc := rfl

/-- Every exception slot coming out of the child walk is hook-fixed. -/
theorem child_slots_ok (g : Option (String → Option String)) (x : Event) :
    ∀ vs lst a, (process_child_values g x).exceptions.value = some vs →
      vs.values.value = some lst → a ∈ lst → process_exception a = a := by
  intro vs lst a hvs hlst ha
  have hvs' : x.exceptions.value.map (fun vs =>
      ({ vs with values := { vs.values with
          value := vs.values.value.map (List.map process_exception) } } : Values)) =
      some vs := hvs
  cases hx : x.exceptions.value with
  | none =>
    rw [hx] at hvs'
    cases hvs'
  | some vs0 =>
    rw [hx] at hvs'
    dsimp only [Option.map] at hvs'
    have hvs2 := Option.some.inj hvs'
    subst hvs2
    dsimp only at hlst
    cases hl0 : vs0.values.value with
    | none =>
      rw [hl0] at hlst
      cases hlst
    | some lst0 =>
      rw [hl0] at hlst
      dsimp only [Option.map] at hlst
      have hlst2 := Option.some.inj hlst
      subst hlst2
      obtain ⟨a0, ha0, rfl⟩ := List.mem_map.mp ha
      exact process_exception_idem a0

/-- The stacktrace move either leaves both slots alone or moves the
top-level stacktrace into the single valued exception. -/
theorem normalize_exceptions_split (x : Event) :
    ((normalize_exceptions x).exceptions = x.exceptions ∧
     (normalize_exceptions x).stacktrace = x.stacktrace) ∨
    (∃ vs a exc, x.exceptions.value = some vs ∧ vs.values.value = some [a] ∧
      a.value = some exc ∧ x.stacktrace.value.isSome = true ∧
      (normalize_exceptions x).exceptions =
        { value := some { vs with values := vs.values.set_value (some
            [{ value := some { exc with stacktrace := x.stacktrace }, meta := a.meta }]) },
          meta := x.exceptions.meta } ∧
      (normalize_exceptions x).stacktrace = Annotated.empty) := by
  unfold normalize_exceptions
  dsimp only
  cases hvs : x.exceptions.value with
  | none => exact Or.inl ⟨rfl, rfl⟩
  | some vs =>
    dsimp only
    cases hls : vs.values.value with
    | none => exact Or.inl ⟨rfl, rfl⟩
    | some lst =>
      dsimp only
      by_cases hcond : (lst.length = 1 && x.stacktrace.value.isSome) = true
      · have hcond' := hcond
        simp only [Bool.and_eq_true, decide_eq_true_eq] at hcond'
        obtain ⟨a, rfl⟩ : ∃ a, lst = [a] := by
          cases lst with
          | nil => simp at hcond'
          | cons a t =>
            cases t with
            | nil => exact ⟨a, rfl⟩
            | cons b t2 =>
              exfalso
              have := hcond'.1
              simp only [List.length_cons] at this
              omega
        rw [if_pos hcond]
        dsimp only
        cases hav : a.value with
        | none => exact Or.inl ⟨rfl, rfl⟩
        | some exc =>
          exact Or.inr ⟨vs, a, exc, rfl, hls, hav, hcond'.2, rfl, rfl⟩
      · rw [if_neg hcond]
        exact Or.inl ⟨rfl, rfl⟩

/-- The stacktrace move preserves hook-fixed exception slots. -/
theorem normalize_exceptions_slots_ok (x : Event)
    (hx : ∀ vs lst a, x.exceptions.value = some vs → vs.values.value = some lst →
      a ∈ lst → process_exception a = a) :
    ∀ vs lst a, (normalize_exceptions x).exceptions.value = some vs →
      vs.values.value = some lst → a ∈ lst → process_exception a = a := by
  intro vs lst a hvs hlst ha
  rcases normalize_exceptions_split x with ⟨he, _⟩ |
    ⟨vs0, a0, exc0, hv0, hl0, ha0, _, he, _⟩
  · rw [he] at hvs
    exact hx vs lst a hvs hlst ha
  · rw [he] at hvs
    have hvs2 : ({ vs0 with values := vs0.values.set_value (some
        [{ value := some { exc0 with stacktrace := x.stacktrace }, meta := a0.meta }]) } :
        Values) = vs := Option.some.inj hvs
    subst hvs2
    have hlst2 : ([{ value := some { exc0 with stacktrace := x.stacktrace }, meta := a0.meta }] : List (Annotated Exception)) = lst := Option.some.inj hlst
    subst hlst2
    have ha2 : a = { value := some { exc0 with stacktrace := x.stacktrace }, meta := a0.meta } := by simpa using ha
    subst ha2
    have hok0 : excOkB exc0 = true := by
      refine process_exception_result_excOk a0 exc0 ?_
      rw [hx vs0 [a0] a0 hv0 hl0 (List.mem_cons_self _ _)]
      exact ha0
    have hok : excOkB { exc0 with stacktrace := x.stacktrace } = true := by
      rw [excOkB_stacktrace]
      exact hok0
    exact process_exception_of_excOk _ _ hok

/-- After the stacktrace move, a single valued exception implies an empty
top-level stacktrace. -/
theorem normalize_exceptions_no_move (x : Event) :
    ∀ vs lst a exc, (normalize_exceptions x).exceptions.value = some vs →
      vs.values.value = some lst → lst = [a] → a.value = some exc →
      (normalize_exceptions x).stacktrace.value.isSome = false := by
  unfold normalize_exceptions
  dsimp only
  cases hvs0 : x.exceptions.value with
  | none =>
    intro vs lst a exc hvs hlst hla hav
    dsimp only at hvs
    rw [hvs0] at hvs
    exact Option.noConfusion hvs
  | some vs0 =>
    intro vs lst a exc hvs hlst hla hav
    subst hla
    dsimp only at hvs ⊢
    cases hls : vs0.values.value with
    | none =>
      rw [hls] at hvs
      dsimp only at hvs
      rw [hvs0] at hvs
      have hv2 : vs0 = vs := Option.some.inj hvs
      subst hv2
      rw [hls] at hlst
      exact Option.noConfusion hlst
    | some lst0 =>
      rw [hls] at hvs
      dsimp only at hvs ⊢
      by_cases hcond : (lst0.length = 1 && x.stacktrace.value.isSome) = true
      · have hcond' := hcond
        simp only [Bool.and_eq_true, decide_eq_true_eq] at hcond'
        obtain ⟨a0, rfl⟩ : ∃ a0, lst0 = [a0] := by
          cases lst0 with
          | nil => simp at hcond'
          | cons b t =>
            cases t with
            | nil => exact ⟨b, rfl⟩
            | cons b2 t2 =>
              exfalso
              have := hcond'.1
              simp only [List.length_cons] at this
              omega
        rw [if_pos hcond] at hvs ⊢
        dsimp only at hvs ⊢
        cases hav0 : a0.value with
        | none =>
          rw [hav0] at hvs
          dsimp only at hvs
          rw [hvs0] at hvs
          have hv2 : vs0 = vs := Option.some.inj hvs
          subst hv2
          have hlists : ([a0] : List (Annotated Exception)) = [a] :=
            Option.some.inj (hls.symm.trans hlst)
          injection hlists with ha2 _
          rw [← ha2] at hav
          rw [hav0] at hav
          exact Option.noConfusion hav
        | some exc0 =>
          dsimp only
          rfl
      · rw [if_neg hcond] at hvs ⊢
        dsimp only at hvs ⊢
        rw [hvs0] at hvs
        have hv2 : vs0 = vs := Option.some.inj hvs
        subst hv2
        have hlists : ([a] : List (Annotated Exception)) = lst0 :=
          Option.some.inj (hlst.symm.trans hls)
        subst hlists
        cases hst : x.stacktrace.value.isSome with
        | false => rfl
        | true =>
          exfalso
          exact hcond (by simp [hst])

/-- Deduplication only keeps input entries, and valued survivors have
non-reserved keys. -/
theorem dedupTags_mem (l : List (Annotated TagEntry)) : ∀ seen a,
    a ∈ dedupTags seen l → a ∈ l ∧ ∀ p, a.value = some p →
      RESERVED_TAG_KEYS.contains (p.key.value.getD "") = false := by
  induction l with
  | nil =>
    intro seen a ha
    rw [show dedupTags seen ([] : List (Annotated TagEntry)) = [] from rfl] at ha
    cases ha
  | cons b rest ih =>
    intro seen a ha
    unfold dedupTags at ha
    cases hbv : b.value with
    | none =>
      rw [hbv] at ha
      dsimp only at ha
      rcases List.mem_cons.mp ha with rfl | ha'
      · exact ⟨List.mem_cons_self _ _, fun p hp => by rw [hbv] at hp; cases hp⟩
      · obtain ⟨hmem, hcond⟩ := ih seen a ha'
        exact ⟨List.mem_cons_of_mem _ hmem, hcond⟩
    | some p =>
      rw [hbv] at ha
      dsimp only at ha
      by_cases hres : RESERVED_TAG_KEYS.contains (p.key.value.getD "") = true
      · rw [if_pos hres] at ha
        obtain ⟨hmem, hcond⟩ := ih seen a ha
        exact ⟨List.mem_cons_of_mem _ hmem, hcond⟩
      · rw [if_neg hres] at ha
        by_cases hseen : seen.contains (p.key.value.getD "") = true
        · rw [if_pos hseen] at ha
          obtain ⟨hmem, hcond⟩ := ih seen a ha
          exact ⟨List.mem_cons_of_mem _ hmem, hcond⟩
        · rw [if_neg hseen] at ha
          rcases List.mem_cons.mp ha with rfl | ha'
          · refine ⟨List.mem_cons_self _ _, fun q hq => ?_⟩
            have hpq : p = q := Option.some.inj (hbv.symm.trans hq)
            subst hpq
            simpa using hres
          · obtain ⟨hmem, hcond⟩ := ih _ a ha'
            exact ⟨List.mem_cons_of_mem _ hmem, hcond⟩

/-- Inversion for tag validation: a surviving entry kept its tag and the
tag passed all bounds checks. -/
theorem validateTagEntry_inv (b : Annotated TagEntry) (p : TagEntry)
    (h : (validateTagEntry b).value = some p) :
    b.value = some p ∧
    (∀ k, p.key.value = some k → ¬(numChars k > maxCharsTagKey)) ∧
    (∀ v, p.value.value = some v → ¬(v = "") ∧ ¬(numChars v > maxCharsTagValue)) := by
  obtain ⟨q, hq, h1, h2⟩ := Annotated.apply_value_some _ _ _ _ h
  have hq1 : (validateTagFn q b.meta).1 = q := validateTagFn_fst q b.meta
  have hpq : p = q := h1.symm.trans hq1
  subst hpq
  refine ⟨hq, ?_, ?_⟩
  · intro k hk hbad
    unfold validateTagFn at h2
    rw [hk] at h2
    dsimp only at h2
    rw [if_pos hbad] at h2
    exact Option.noConfusion h2
  · intro v hv
    have hchk : (match p.value.value with
        | some v =>
          if v == "" then
            (p, b.meta.add_error ErrorRec.nonempty, some ProcessingAction.deleteValueHard)
          else if numChars v > maxCharsTagValue then
            (p, b.meta.add_error (ErrorRec.new .valueTooLong),
              some ProcessingAction.deleteValueHard)
          else (p, b.meta, none)
        | none => (p, b.meta, none)).2.2 = none := by
      unfold validateTagFn at h2
      cases hk : p.key.value with
      | none =>
        rw [hk] at h2
        dsimp only at h2
        exact h2
      | some k =>
        rw [hk] at h2
        dsimp only at h2
        by_cases hbad : numChars k > maxCharsTagKey
        · rw [if_pos hbad] at h2
          exact Option.noConfusion h2
        · rw [if_neg hbad] at h2
          exact h2
    rw [hv] at hchk
    dsimp only at hchk
    by_cases hemp : (v == "") = true
    · rw [if_pos hemp] at hchk
      exact Option.noConfusion hchk
    · rw [if_neg hemp] at hchk
      by_cases hlong : numChars v > maxCharsTagValue
      · rw [if_pos hlong] at hchk
        exact Option.noConfusion hchk
      · exact ⟨by simpa using hemp, hlong⟩

/-- A property of tags closed under replacement and the fresh entry is
closed under `insertTag`. -/
theorem insertTag_forall (Q : TagEntry → Prop) (l : List (Annotated TagEntry))
    (k : String) (v : Annotated String)
    (hl : ∀ a ∈ l, ∀ p, a.value = some p → Q p)
    (hnew : Q { key := Annotated.new k, value := v })
    (hrepl : ∀ p, Q p → p.key.value = some k → Q { p with value := v }) :
    ∀ a ∈ insertTag l k v, ∀ p, a.value = some p → Q p := by
  induction l with
  | nil =>
    intro a ha p hp
    rw [show insertTag ([] : List (Annotated TagEntry)) k v =
      [Annotated.new { key := Annotated.new k, value := v }] from rfl] at ha
    rcases List.mem_cons.mp ha with rfl | h0
    · have he : ({ key := Annotated.new k, value := v } : TagEntry) = p :=
        Option.some.inj hp
      rw [← he]
      exact hnew
    · cases h0
  | cons b rest ih =>
    intro a ha p hp
    cases hbv : b.value with
    | none =>
      rw [insertTag_cons_none _ _ _ _ hbv] at ha
      rcases List.mem_cons.mp ha with rfl | ha'
      · exact hl a (List.mem_cons_self _ _) p hp
      · exact ih (fun y hy => hl y (List.mem_cons_of_mem _ hy)) a ha' p hp
    | some q =>
      by_cases hqk : q.key.value = some k
      · rw [insertTag_cons_hit _ _ _ _ q hbv hqk] at ha
        rcases List.mem_cons.mp ha with rfl | ha'
        · have he : ({ q with value := v } : TagEntry) = p := Option.some.inj hp
          rw [← he]
          exact hrepl q (hl b (List.mem_cons_self _ _) q hbv) hqk
        · exact hl a (List.mem_cons_of_mem _ ha') p hp
      · rw [insertTag_cons_miss _ _ _ _ q hbv hqk] at ha
        rcases List.mem_cons.mp ha with rfl | ha'
        · exact hl a (List.mem_cons_self _ _) p hp
        · exact ih (fun y hy => hl y (List.mem_cons_of_mem _ hy)) a ha' p hp

/-- Inserting a good key with a good value preserves entry goodness. -/
theorem insertTag_good_move (l : List (Annotated TagEntry)) (k : String)
    (hk1 : RESERVED_TAG_KEYS.contains k = false) (hk2 : ¬(k = "environment"))
    (hk3 : ¬(numChars k > maxCharsTagKey)) (v : Annotated String)
    (hv : ∀ s, v.value = some s → ¬(s = "") ∧ ¬(numChars s > maxCharsTagValue))
    (hl : ∀ a ∈ l, ∀ p, a.value = some p → tagEntryGood p) :
    ∀ a ∈ insertTag l k v, ∀ p, a.value = some p → tagEntryGood p := by
  refine insertTag_forall tagEntryGood l k v hl ⟨⟨k, rfl, hk1, hk2, hk3⟩, ?_⟩ ?_
  · intro s hs
    exact hv s hs
  · intro p hQ hpk
    obtain ⟨hkey, _⟩ := hQ
    refine ⟨hkey, ?_⟩
    intro s hs
    exact hv s hs

/-- The tag-list pipeline of `normalize_event_tags` as a standalone
function: remove the legacy `environment` entry, deduplicate, validate,
and perform the `server_name`/`site` moves. -/
def tagsPipeline (x : Event) : List (Annotated TagEntry) :=
  let pairs1 := (removeTag ((x.tags.get_or_insert_with {}).value.getD {}).pairs
    "environment").2
  let pairs3 := (dedupTags [] pairs1).map validateTagEntry
  let pairs4 := if x.server_name.value.isSome then
    insertTag pairs3 "server_name" x.server_name else pairs3
  if x.site.value.isSome then insertTag pairs4 "site" x.site else pairs4

/-- Under the no-legacy-environment-tag and bounded `server_name`/`site`
hypotheses, every output tag entry is good and the keys are distinct. -/
theorem tags_output_good (x : Event)
    (hx : ∀ a ∈ ((x.tags.get_or_insert_with {}).value.getD {}).pairs, ∀ p,
      a.value = some p → ¬(p.key.value = some "environment"))
    (hsn : ∀ s, x.server_name.value = some s → ¬(s = "") ∧
      ¬(numChars s > maxCharsTagValue))
    (hsite : ∀ s, x.site.value = some s → ¬(s = "") ∧
      ¬(numChars s > maxCharsTagValue)) :
    (∀ a ∈ tagsPipeline x, ∀ p, a.value = some p → tagEntryGood p) ∧
    (tagKeys (tagsPipeline x)).Nodup := by
  have hrm : removeTag ((x.tags.get_or_insert_with {}).value.getD {}).pairs
      "environment" = (none, ((x.tags.get_or_insert_with {}).value.getD {}).pairs) :=
    removeTag_not_found _ _ hx
  have hgood3 : ∀ a ∈ (dedupTags []
      ((x.tags.get_or_insert_with {}).value.getD {}).pairs).map validateTagEntry,
      ∀ p, a.value = some p → tagEntryGood p := by
    intro a ha p hp
    obtain ⟨b, hb, rfl⟩ := List.mem_map.mp ha
    obtain ⟨hbv, hklen, hvlen⟩ := validateTagEntry_inv b p hp
    obtain ⟨hbmem, hbres⟩ := dedupTags_mem _ [] b hb
    have hres := hbres p hbv
    cases hk : p.key.value with
    | none =>
      rw [hk] at hres
      exact absurd hres (by decide)
    | some k =>
      rw [hk] at hres
      refine ⟨⟨k, hk, hres, ?_, hklen k hk⟩, hvlen⟩
      intro hke
      exact hx b hbmem p hbv (by rw [hk, hke])
  have hnd3 : (tagKeys ((dedupTags []
      ((x.tags.get_or_insert_with {}).value.getD {}).pairs).map
      validateTagEntry)).Nodup :=
    List.Nodup.sublist (tagKeys_validate_sublist _) (dedupTags_keys _ []).1
  unfold tagsPipeline
  rw [hrm]
  dsimp only
  constructor
  · by_cases hcsn : x.server_name.value.isSome = true
    · rw [if_pos hcsn]
      by_cases hcst : x.site.value.isSome = true
      · rw [if_pos hcst]
        refine insertTag_good_move _ _ (by decide) (by decide) (by decide) _ hsite ?_
        exact insertTag_good_move _ _ (by decide) (by decide) (by decide) _ hsn hgood3
      · rw [if_neg hcst]
        exact insertTag_good_move _ _ (by decide) (by decide) (by decide) _ hsn hgood3
    · rw [if_neg hcsn]
      by_cases hcst : x.site.value.isSome = true
      · rw [if_pos hcst]
        refine insertTag_good_move _ _ (by decide) (by decide) (by decide) _ hsite ?_
        exact hgood3
      · rw [if_neg hcst]
        exact hgood3
  · exact nodup_ite_insert _ _ _ _ (nodup_ite_insert _ _ _ _ hnd3)

/-- With no legacy environment tag, the tags step only applies the
emptiness reset to the environment. -/
theorem tags_env_characterization (x : Event)
    (hrm : removeTag (((x.tags.get_or_insert_with {}).value.getD {}).pairs)
      "environment" = (none, ((x.tags.get_or_insert_with {}).value.getD {}).pairs)) :
    (normalize_event_tags x).environment =
      (if annStrIsEmpty x.environment then Annotated.empty else x.environment) := by
  unfold normalize_event_tags
  dsimp only
  rw [hrm]
  rfl

/-- The defaulted platform of a non-client-platform event is not a client
platform. -/
theorem platform_defaulted_not_client (x : Event)
    (h : isClientIpPlatform x.platform.value = false) :
    isClientIpPlatform ((validate_basic_attributes x).platform.get_or_insert_with
      "other").value = false := by
  show isClientIpPlatform
    (some (((validate_basic_attributes x).platform.value).getD "other")) = false
  cases hv : (validate_basic_attributes x).platform.value with
  | none => decide
  | some q =>
    obtain ⟨v, hv0, h1, h2⟩ := Annotated.apply_value_some _ _ _ _
      (show (x.platform.apply Orig.str fun p m => if is_valid_platform p then (p, m, none)
        else (p, m, some .deleteValueSoft)).value = some q from hv)
    have hvq : v = q := by
      by_cases hval : is_valid_platform v = true
      · rw [if_pos hval] at h1
        exact h1
      · rw [if_neg hval] at h1
        exact h1
    subst hvq
    rw [hv0] at h
    exact h

set_option maxHeartbeats 4000000 in
/-- Core idempotence of the pipeline at a fixed config: with nonnegative
timestamp bounds, no legacy environment tag, and in-bounds
`server_name`/`site` values, running normalization twice equals running it
once. -/
theorem process_event_idem_core (config : StoreConfig)
    (geoip : Option (String → Option String)) (now : Int) (fid : String)
    (e : Event)
    (H1 : ∀ secs, config.max_secs_in_future = some secs → 0 ≤ secs)
    (H2 : ∀ secs, config.max_secs_in_past = some secs → 0 ≤ secs)
    (H3 : ∀ a ∈ (e.tags.value.getD {}).pairs, ∀ p, a.value = some p →
      ¬(p.key.value = some "environment"))
    (H4 : ∀ s, e.server_name.value = some s → ¬(s = "") ∧
      ¬(numChars s > maxCharsTagValue))
    (H5 : ∀ s, e.site.value = some s → ¬(s = "") ∧
      ¬(numChars s > maxCharsTagValue)) :
    process_event config geoip now fid (process_event config geoip now fid e) =
      process_event config geoip now fid e := by
  have hstep : ∀ y : Event, process_event config geoip now fid y =
      normalize_exceptions (normalize_event_tags (normalize_timestamps config now
        (normalize_release_dist (default_required_attributes config fid
          (validate_basic_attributes (apply_overrides config
            (process_child_values geoip (normalize_ip_addresses config
              (normalize_security_report config y))))))))) := fun _ => rfl
  rw [hstep e, hstep]
  set X1 := normalize_security_report config e with hX1
  set X2 := normalize_ip_addresses config X1 with hX2
  set X3 := process_child_values geoip X2 with hX3
  set X4 := apply_overrides config X3 with hX4
  set X5 := validate_basic_attributes X4 with hX5
  set X6 := default_required_attributes config fid X5 with hX6
  set X7 := normalize_release_dist X6 with hX7
  set X8 := normalize_timestamps config now X7 with hX8
  set X9 := normalize_event_tags X8 with hX9
  set E := normalize_exceptions X9 with hE
  -- step 1: the security report pass
  have s1 : normalize_security_report config E = E := by
    refine normalize_security_report_fix config E (fun _ => rfl) ?_
    intro hsec cip hcip
    have hsec' : is_security_report e = true := hsec
    obtain ⟨u1, hu1, hip1⟩ := sec_report_user_ip config e cip hsec' hcip
    obtain ⟨u2, hu2, hip2⟩ :=
      ip_step_user_pinned config X1 cip hcip ⟨u1, hu1, hip1⟩
    obtain ⟨hkeep, hipeq⟩ := process_user_slot_keeps geoip X2.user u2 hu2
    refine ⟨_, hkeep, ?_⟩
    rw [hipeq, hip2]
  -- step 2: the IP pass
  have s2 : normalize_ip_addresses config E = E := by
    refine normalize_ip_addresses_fix config E (requestFix_idem config X1.request)
      ?_ ?_ ?_
    · cases hcip : config.client_ip with
      | none => exact userAutoFix_of_none config E.user hcip
      | some cip =>
        exact userAutoFix_of_resolved config E.user
          (process_user_slot_resolved config geoip X2.user
            (ip_step_resolved config X1 cip hcip))
    · intro hip hh
      have hh' : httpIpOf (requestFix config X1.request) = some hip := hh
      obtain ⟨u2, hu2, hip2⟩ := ip_step_user_of_http config X1 hip hh'
      obtain ⟨hkeep, hipeq⟩ := process_user_slot_keeps geoip X2.user u2 hu2
      refine ⟨_, hkeep, ?_⟩
      rw [hipeq]
      exact hip2
    · intro hh cip hcip
      have hh' : httpIpOf (requestFix config X1.request) = none := hh
      obtain ⟨u2, hu2, hcond2⟩ := ip_step_user_of_back config X1 cip hh' hcip
      obtain ⟨hkeep, hipeq⟩ := process_user_slot_keeps geoip X2.user u2 hu2
      refine ⟨_, hkeep, ?_⟩
      intro hni
      rw [hipeq] at hni
      exact platform_defaulted_not_client X4 (hcond2 hni)
  -- step 3: the child hooks
  have s3 : process_child_values geoip E = E := by
    refine process_child_values_fix geoip E (process_user_slot_idem geoip X2.user) ?_
    exact normalize_exceptions_slots_ok X9 (child_slots_ok geoip X2)
  -- step 4: the overrides
  have s4 : apply_overrides config E = E :=
    apply_overrides_fix config E rfl rfl rfl rfl ⟨infer_event_type X3, rfl⟩
  -- environment characterization through the tags pass
  have hrmE : removeTag (((X8.tags.get_or_insert_with {}).value.getD {}).pairs)
      "environment" = (none, ((X8.tags.get_or_insert_with {}).value.getD {}).pairs) :=
    removeTag_not_found _ _ (fun a ha p hp => H3 a ha p hp)
  have henvE : E.environment = (if annStrIsEmpty X8.environment then Annotated.empty
      else X8.environment) := tags_env_characterization X8 hrmE
  -- step 5: the whitelists
  have s5 : validate_basic_attributes E = E := by
    refine validate_basic_attributes_fix E ?_ ?_ ?_
    · intro p hp
      exact platform_defaulted_sound X4 p hp
    · intro v hv
      rw [henvE] at hv
      by_cases hemp : annStrIsEmpty X8.environment = true
      · rw [if_pos hemp] at hv
        exact Option.noConfusion hv
      · rw [if_neg hemp] at hv
        exact env_validate_sound X4 v hv
    · intro r hr
      exact release_validate_sound X4 r hr
  -- step 6: the required-attribute defaults
  have s6 : default_required_attributes config fid E = E := by
    refine default_required_attributes_fix config fid E rfl rfl rfl rfl rfl rfl ?_
    intro hcs
    exact client_sdk_default_sound X5.client_sdk config hcs
  -- step 7: the release/dist coupling
  have s7 : normalize_release_dist E = E := by
    refine normalize_release_dist_fix E ?_
    intro d hd
    exact release_dist_sound X6 d hd
  -- step 8: the timestamps
  have s8 : normalize_timestamps config now E = E := by
    refine normalize_timestamps_fix config now E rfl (ts_default_isSome _ now) ?_ ?_
    · intro t ht
      rcases ts_default_cases _ now t ht with hteq | hkept
      · subst t
        constructor
        · cases hf : config.max_secs_in_future with
          | none => rfl
          | some secs =>
            have hpos := H1 secs hf
            show decide (now + secs < now) = false
            simp only [decide_eq_false_iff_not]
            omega
        · cases hf : config.max_secs_in_past with
          | none => rfl
          | some secs =>
            have hpos := H2 secs hf
            show decide (now < now - secs) = false
            simp only [decide_eq_false_iff_not]
            omega
      · obtain ⟨v, hv, h1, h2⟩ := Annotated.apply_value_some _ _ _ _ hkept
        by_cases hfut : (config.max_secs_in_future.any fun secs =>
            decide (now + secs < v)) = true
        · rw [if_pos hfut] at h2
          exact Option.noConfusion h2
        · rw [if_neg hfut] at h2
          by_cases hpast : (config.max_secs_in_past.any fun secs =>
              decide (v < now - secs)) = true
          · rw [if_pos hpast] at h2
            exact Option.noConfusion h2
          · rw [if_neg hpast] at h2
            have hvt : v = t := by
              rw [if_neg hfut, if_neg hpast] at h1
              exact h1
            subst hvt
            constructor
            · simpa using hfut
            · simpa using hpast
    · intro v hv
      exact time_spent_sound X7.time_spent v hv
  -- step 9: the tags
  have s9 : normalize_event_tags E = E := by
    obtain ⟨hgood, hnodup⟩ := tags_output_good X8 (fun a ha p hp => H3 a ha p hp)
      (fun s hs => H4 s hs) (fun s hs => H5 s hs)
    refine normalize_event_tags_fix E { pairs := tagsPipeline X8 } rfl
      (fun a ha p hp => hgood a ha p hp) hnodup ?_ rfl rfl
    by_cases hemp : annStrIsEmpty X8.environment = true
    · have he : E.environment = Annotated.empty := by
        rw [henvE, if_pos hemp]
      rw [he, ite_self]
    · have he : E.environment = X8.environment := by
        rw [henvE, if_neg hemp]
      rw [he, if_neg hemp]
  -- step 10: the stacktrace move
  have s10 : normalize_exceptions E = E := by
    refine normalize_exceptions_fix E ?_
    intro vs lst a exc hvs hls hla hav
    exact normalize_exceptions_no_move X9 vs lst a exc hvs hls hla hav
  rw [s1, s2, s3, s4, s5, s6, s7, s8, s9, s10]

/-- `process_event` only consumes the listed config fields; in particular
it ignores `is_renormalize`. -/
theorem process_event_config_congr (c₁ c₂ : StoreConfig)
    (g : Option (String → Option String)) (now : Int) (fid : String) (x : Event)
    (h1 : c₁.client_ip = c₂.client_ip) (h2 : c₁.project_id = c₂.project_id)
    (h3 : c₁.key_id = c₂.key_id) (h4 : c₁.protocol_version = c₂.protocol_version)
    (h5 : c₁.grouping_config = c₂.grouping_config) (h6 : c₁.client = c₂.client)
    (h7 : c₁.max_secs_in_future = c₂.max_secs_in_future)
    (h8 : c₁.max_secs_in_past = c₂.max_secs_in_past) :
    process_event c₁ g now fid x = process_event c₂ g now fid x := by
  unfold process_event normalize_security_report normalize_ip_addresses requestFix
    userAutoFix apply_overrides default_required_attributes get_sdk_info
    normalize_timestamps normalize_user_agent
  simp only [h1, h2, h3, h4, h5, h6, h7, h8]

/-- Claim C3 (amended): with `is_renormalize = true` on the second call
(a config field the normalizer never reads), normalization is idempotent
provided the configured timestamp bounds are nonnegative, the event
carries no valued legacy `environment` tag, and any `server_name`/`site`
values are non-empty and within the tag-value length bound; the seeded
counterexample shows the legacy-environment-tag hypothesis is necessary. -/
theorem claim_C3_amended_idempotence (config : StoreConfig)
    (geoip : Option (String → Option String)) (now : Int) (fresh_id : String)
    (e : Event)
    (H1 : ∀ secs, config.max_secs_in_future = some secs → 0 ≤ secs)
    (H2 : ∀ secs, config.max_secs_in_past = some secs → 0 ≤ secs)
    (H3 : ∀ a ∈ (e.tags.value.getD {}).pairs, ∀ p, a.value = some p →
      ¬(p.key.value = some "environment"))
    (H4 : ∀ s, e.server_name.value = some s → ¬(s = "") ∧
      ¬(numChars s > maxCharsTagValue))
    (H5 : ∀ s, e.site.value = some s → ¬(s = "") ∧
      ¬(numChars s > maxCharsTagValue)) :
    process_event { config with is_renormalize := some true } geoip now fresh_id
      (process_event config geoip now fresh_id e) =
      process_event config geoip now fresh_id e := by
  rw [process_event_config_congr { config with is_renormalize := some true } config
    geoip now fresh_id (process_event config geoip now fresh_id e)
    rfl rfl rfl rfl rfl rfl rfl rfl]
  exact process_event_idem_core config geoip now fresh_id e H1 H2 H3 H4 H5

/-- Witness for the amended claim C3: the empty event under the empty
config satisfies all hypotheses, and renormalizing its normalization is a
no-op. -/
theorem claim_C3_amended_idempotence_witness :
    process_event { ({} : StoreConfig) with is_renormalize := some true } none 0 "id"
      (process_event {} none 0 "id" ({} : Event)) =
      process_event {} none 0 "id" ({} : Event) :=
  claim_C3_amended_idempotence {} none 0 "id" {}
    (fun _ h => Option.noConfusion h) (fun _ h => Option.noConfusion h)
    (fun a ha => absurd ha (List.not_mem_nil a))
    (fun _ h => Option.noConfusion h) (fun _ h => Option.noConfusion h)

end Relay
